import Mathlib

set_option maxHeartbeats 1000000

/-
Shallow embedding of the octree bitmap library (src/lib.rs).

The source stores the tree in a `HashMap<BranchIndex, Branch>`; we model the
map as an association list observed through `Store.find?` / `Store.insert` /
`Store.erase` / `Store.modify`, which have exactly the observable behaviour of
the `HashMap` operations used by the source (`insert` replaces an existing
entry, `remove` deletes it, `get_mut` mutates it in place).

Machine integers: `Index` coordinates and `width` are `u32` in the source;
they are modelled as `Nat` with explicit wrap-around (`% 2 ^ 32`, shift
amounts masked by `% 32`) exactly where the `u32` operations can overflow.
Statements about indices carry `< 2 ^ 32` bounds where the `u32` type of the
source makes them implicit.

Panics (`unwrap` on a missing key, `HashMap` indexing with a missing key, the
`unreachable!("branch node at height zero")` assertions, and the `u32`
underflow of `current_height - 1` at height zero) are modelled by `Option`:
a function returns `none` exactly when the source panics.  All such `none`s
in `set` happen before the first mutation of the map, so a panicking call
leaves the tree unchanged.
-/

/-- Number of binary digits of `n` (`0` for `0`), computed with explicit fuel;
exact whenever `n < 2 ^ fuel`. -/
def bitLen : Nat → Nat → Nat
  | 0, _ => 0
  | fuel + 1, n => if n = 0 then 0 else bitLen fuel (n / 2) + 1

/-- Rust `u32::leading_zeros` for `x < 2 ^ 32`. -/
def leadingZeros32 (x : Nat) : Nat := 32 - bitLen 32 x

/-- Rust `u32::next_power_of_two`: the least power of two `≥ self` (`1` for `0`),
with the release-build wrap-around to `0` when the result overflows `u32`
(debug builds panic at the same inputs).  This follows the actual Rust
implementation: `(u32::MAX >> (self - 1).leading_zeros()) + 1` for `self > 1`. -/
def nextPowerOfTwo32 (w : Nat) : Nat :=
  ((if w ≤ 1 then 0 else (2 ^ 32 - 1) >>> leadingZeros32 (w - 1)) + 1) % 2 ^ 32

/-- The `u32` value of the mask `!((1 << height) - 1)` from `Index::branch_at`
(all ones above the low `height` bits).  The shift amount of a `u32` shift is
masked by `% 32` (release semantics; debug builds panic when `height ≥ 32`). -/
def mask32 (height : Nat) : Nat := 2 ^ 32 - 2 ^ (height % 32)

/-- `x & !((1 << height) - 1)` on `u32` values: clearing the low
`height % 32` bits of `x` is `x / 2 ^ (height % 32) * 2 ^ (height % 32)`.
The lemma `clearLow_eq_land` below proves this equal to `x &&& mask32 height`
for every `x < 2 ^ 32`; the `/`-`*` form is used in the definition because it
is the form the kernel can evaluate on concrete inputs. -/
def clearLow (x height : Nat) : Nat :=
  x / 2 ^ (height % 32) * 2 ^ (height % 32)

/-- `pub struct Index { x: u32, y: u32, z: u32 }`. -/
structure Index where
  x : Nat
  y : Nat
  z : Nat
deriving DecidableEq

/-- `fn bit(&self, height: u32) -> (usize, usize, usize)`:
`((x >> height) & 1, (y >> height) & 1, (z >> height) & 1)`; `& 1` is `% 2`
(`Nat.and_one_is_mod`). -/
def Index.bit (i : Index) (height : Nat) : Fin 2 × Fin 2 × Fin 2 :=
  (⟨(i.x >>> height) % 2, Nat.mod_lt _ (by omega)⟩,
   ⟨(i.y >>> height) % 2, Nat.mod_lt _ (by omega)⟩,
   ⟨(i.z >>> height) % 2, Nat.mod_lt _ (by omega)⟩)

/-- `struct BranchIndex { base: Index, height: u32 }`. -/
structure BranchIndex where
  base : Index
  height : Nat
deriving DecidableEq

/-- `BranchIndex::root(height)`: base `(0, 0, 0)` at the given height. -/
def BranchIndex.root (height : Nat) : BranchIndex :=
  { base := { x := 0, y := 0, z := 0 }, height := height }

/-- `fn branch_at(&self, height: u32) -> BranchIndex`:
`mask = !((1 << height) - 1)`; the base is the coordinate with its low
`height` bits cleared. -/
def Index.branchAt (i : Index) (height : Nat) : BranchIndex :=
  { base := { x := clearLow i.x height, y := clearLow i.y height, z := clearLow i.z height }
    height := height }

/-- `enum RawNode { False, True, Branch }`. -/
inductive RawNode where
  | False
  | True
  | Branch
deriving DecidableEq

/-- `impl From<bool> for RawNode`. -/
def RawNode.ofBool : Bool → RawNode
  | false => RawNode.False
  | true => RawNode.True

/-- `struct Branch { children: [[[RawNode; 2]; 2]; 2] }`; the nesting order of
the source's array is `children[z][y][x]`. -/
structure Branch where
  children : Fin 2 → Fin 2 → Fin 2 → RawNode

instance : DecidableEq Branch := fun a b =>
  if h : a.children = b.children then
    Decidable.isTrue (by cases a; cases b; simpa using h)
  else
    Decidable.isFalse (by intro hab; exact h (by rw [hab]))

/-- The uniform children array `[[[s; 2]; 2]; 2]`. -/
def Branch.uniform (s : RawNode) : Branch := ⟨fun _ _ _ => s⟩

/-- `children[z][y][x]` for the octant bits `b = (x, y, z)` produced by
`Index::bit`. -/
def Branch.childAt (br : Branch) (b : Fin 2 × Fin 2 × Fin 2) : RawNode :=
  br.children b.2.2 b.2.1 b.1

/-- The in-place update `children[z][y][x] = v` for octant bits `b = (x, y, z)`. -/
def Branch.setChild (br : Branch) (b : Fin 2 × Fin 2 × Fin 2) (v : RawNode) : Branch :=
  ⟨fun z y x => if z = b.2.2 ∧ y = b.2.1 ∧ x = b.1 then v else br.children z y x⟩

/-- Model of `HashMap<BranchIndex, Branch>` as an association list. -/
abbrev Store := List (BranchIndex × Branch)

/-- `HashMap` lookup (`&map[key]` / `map.get_mut(key)`). -/
def Store.find? : Store → BranchIndex → Option Branch
  | [], _ => none
  | kv :: m, k => if k = kv.1 then some kv.2 else Store.find? m k

/-- `HashMap::remove`. -/
def Store.erase (m : Store) (k : BranchIndex) : Store :=
  m.filter fun kv => decide (¬ kv.1 = k)

/-- `HashMap::insert` (replaces any existing entry for the key). -/
def Store.insert (m : Store) (k : BranchIndex) (v : Branch) : Store :=
  (k, v) :: m.erase k

/-- In-place mutation of an entry that is known to be present
(`map.get_mut(&k).unwrap()` followed by a field update). -/
def Store.modify (m : Store) (k : BranchIndex) (f : Branch → Branch) : Store :=
  m.map fun kv => if kv.1 = k then (k, f kv.2) else kv

/-- `pub struct OctreeBitmap { branches: HashMap<BranchIndex, Branch>, height: u32 }`. -/
structure OctreeBitmap where
  branches : Store
  height : Nat
deriving DecidableEq

/-- `OctreeBitmap::new(width)`:
`height = u32::BITS - width.next_power_of_two().leading_zeros()`, and a
single root branch with all-`False` children. -/
def OctreeBitmap.new (width : Nat) : OctreeBitmap :=
  let height := 32 - leadingZeros32 (nextPowerOfTwo32 width)
  { branches := Store.insert [] (BranchIndex.root height) (Branch.uniform RawNode.False)
    height := height }

/-- `OctreeBitmap::clear`: empty the map and re-insert the all-`False` root. -/
def OctreeBitmap.clear (t : OctreeBitmap) : OctreeBitmap :=
  { t with branches := Store.insert [] (BranchIndex.root t.height) (Branch.uniform RawNode.False) }

/-- `OctreeBitmap::width`: `1 << self.height` as a `u32`; the shift amount is
masked by `% 32` (release semantics; debug builds panic when `height ≥ 32`,
which happens exactly for constructions with `width ≥ 2 ^ 31`). -/
def OctreeBitmap.width (t : OctreeBitmap) : Nat := 1 <<< (t.height % 32)

/-- The descent loop of `OctreeBitmap::get`, with `current_height` as the
recursion parameter (it strictly decreases, so the loop runs at most `height`
iterations).  At `current_height = 0` the source computes
`idx.bit(current_height - 1)`, which underflows `u32` (debug panic): `none`.
A missing key panics (`&self.branches[..]`): `none`.  A `Branch` child found
after decrementing `current_height` to `0` hits
`unreachable!("branch node at height zero")`: `none`. -/
def OctreeBitmap.getLoop (t : OctreeBitmap) (idx : Index) : Nat → Option Bool
  | 0 => none
  | ch + 1 =>
    match Store.find? t.branches (idx.branchAt (ch + 1)) with
    | none => none
    | some br =>
      match br.childAt (idx.bit ch) with
      | RawNode.False => some false
      | RawNode.True => some true
      | RawNode.Branch => if ch = 0 then none else t.getLoop idx ch

/-- `OctreeBitmap::get`: run the descent loop from `current_height = self.height`. -/
def OctreeBitmap.get (t : OctreeBitmap) (idx : Index) : Option Bool :=
  t.getLoop idx t.height

/-- The loop of `OctreeBitmap::compress`, iterating
`current_height in 1..self.height` from the leaf towards the root; `r` is the
number of remaining iterations (`self.height - current_height`).  Each
iteration inspects the branch at `idx.branch_at(current_height)` (a missing
entry panics via `unwrap`: `none`); a non-uniform branch stops the walk; a
uniform one is removed and the corresponding child of its parent is set to
`state` (the parent's `unwrap` likewise yields `none` if it is missing). -/
def OctreeBitmap.compressFrom (idx : Index) (state : RawNode) :
    Nat → Nat → OctreeBitmap → Option OctreeBitmap
  | 0, _, t => some t
  | r + 1, ch, t =>
    match Store.find? t.branches (idx.branchAt ch) with
    | none => none
    | some br =>
      if br = Branch.uniform state then
        let m1 := (t.branches.erase (idx.branchAt ch))
        match Store.find? m1 (idx.branchAt (ch + 1)) with
        | none => none
        | some _ =>
          OctreeBitmap.compressFrom idx state r (ch + 1)
            { t with branches := (Store.modify m1 (idx.branchAt (ch + 1))
                (fun p => p.setChild (idx.bit ch) state)) }
      else some t

/-- `OctreeBitmap::compress(idx, state)`: the walk starts at
`current_height = 1` and performs `self.height - 1` iterations at most (the
root, at `current_height = self.height`, is intentionally excluded). -/
def OctreeBitmap.compress (t : OctreeBitmap) (idx : Index) (state : RawNode) :
    Option OctreeBitmap :=
  OctreeBitmap.compressFrom idx state (t.height - 1) 1 t

/-- The loop of `OctreeBitmap::set`, with `current_height` as recursion
parameter.  Cases, exactly as in the source:
* `current_height = 0`: the source computes `idx.bit(current_height - 1)`,
  a `u32` underflow (debug panic): `none`;
* missing entry at `idx.branch_at(current_height)`: `get_mut(..).unwrap()`
  panics: `none`;
* child is `Branch`: decrement `current_height`; if it reaches `0` the source
  hits `unreachable!("branch node at height zero")` (`none`), else loop;
* child is a terminal equal to `desired`: return with no change;
* child is a terminal `other ≠ desired` at `current_height = 1`: write the
  leaf and run `compress`;
* child is a terminal `other ≠ desired` at `current_height > 1`: set the
  child to `Branch` and insert a new all-`other` branch at
  `idx.branch_at(current_height - 1)`.  The source then loops at the same
  `current_height`, re-reads the same entry, necessarily takes the `Branch`
  arm (that child was just written), decrements — the height-zero check
  cannot fire because `current_height > 1` here — and continues at
  `current_height - 1`; that re-read iteration is fused into the recursive
  call below. -/
def OctreeBitmap.setLoop (idx : Index) (desired : RawNode) :
    Nat → OctreeBitmap → Option OctreeBitmap
  | 0, _ => none
  | ch + 1, t =>
    match Store.find? t.branches (idx.branchAt (ch + 1)) with
    | none => none
    | some br =>
      match br.childAt (idx.bit ch) with
      | RawNode.Branch => if ch = 0 then none else OctreeBitmap.setLoop idx desired ch t
      | other =>
        if desired = other then some t
        else if ch = 0 then
          OctreeBitmap.compress
            { t with branches := (Store.modify t.branches (idx.branchAt 1)
                (fun p => p.setChild (idx.bit 0) desired)) }
            idx desired
        else
          OctreeBitmap.setLoop idx desired ch
            { t with branches :=
                (Store.insert
                  (Store.modify t.branches (idx.branchAt (ch + 1))
                    (fun p => p.setChild (idx.bit ch) RawNode.Branch))
                  (idx.branchAt ch) (Branch.uniform other)) }

/-- `OctreeBitmap::set(idx, value)`: `desired_state = RawNode::from(value)`,
then run the write loop from `current_height = self.height`.  The source
function returns `()`; its whole effect is the mutation of `self`, so the
model returns the updated tree (`none` = panic, before any mutation). -/
def OctreeBitmap.set (t : OctreeBitmap) (idx : Index) (value : Bool) :
    Option OctreeBitmap :=
  OctreeBitmap.setLoop idx (RawNode.ofBool value) t.height t

/-- The return type of `OctreeBitmap::set` in the source: the function's
signature is `pub fn set(&mut self, idx: &Index, value: bool)` — it returns
the unit value `()`, not a `bool`. -/
def SetReturn : Type := Unit

/-- The index-validity contract of the source's doc comments: every axis in
`0..width()`. -/
def OctreeBitmap.inRange (t : OctreeBitmap) (idx : Index) : Prop :=
  idx.x < t.width ∧ idx.y < t.width ∧ idx.z < t.width

instance (t : OctreeBitmap) (idx : Index) : Decidable (t.inRange idx) := by
  unfold OctreeBitmap.inRange; infer_instance

/-- Number of live branch nodes (the `HashMap`'s entry count). -/
def OctreeBitmap.nodeCount (t : OctreeBitmap) : Nat := t.branches.length

/-- Run a sequence of `set` calls left to right (`none` as soon as one panics). -/
def OctreeBitmap.runSets : OctreeBitmap → List (Index × Bool) → Option OctreeBitmap
  | t, [] => some t
  | t, (i, v) :: ops =>
    match t.set i v with
    | none => none
    | some t' => t'.runSets ops

/-- The value of the most recent write to `idx` in a call sequence
(`false` if `idx` was never written). -/
def lastWrite (idx : Index) (ops : List (Index × Bool)) : Bool :=
  ops.foldl (fun acc p => if p.1 = idx then p.2 else acc) false

/-- Trees reachable through the public API: a fresh construction, or the
result of a completed `clear` or `set` on a reachable tree.  Constructions
are taken with `width ≤ 2 ^ 30`: for larger `u32` widths the height
computation and `width()` overflow 32 bits (debug builds panic; see the C4
analysis), so no well-formed tree exists.  `set` indices are `u32` values,
hence the `< 2 ^ 32` bounds. -/
inductive Reachable : OctreeBitmap → Prop where
  | new : ∀ w, w ≤ 2 ^ 30 → Reachable (OctreeBitmap.new w)
  | clear : ∀ t, Reachable t → Reachable t.clear
  | set : ∀ t idx v t', Reachable t →
      idx.x < 2 ^ 32 → idx.y < 2 ^ 32 → idx.z < 2 ^ 32 →
      t.set idx v = some t' → Reachable t'

/-- Verification infrastructure: the child value the descent reads at level
`j ≥ 1` for `idx` — the octant `idx.bit (j - 1)` of the branch stored at
`idx.branchAt j` (`none` if that branch is missing). -/
def OctreeBitmap.probe (t : OctreeBitmap) (idx : Index) (j : Nat) : Option RawNode :=
  (Store.find? t.branches (idx.branchAt j)).map fun br => br.childAt (idx.bit (j - 1))

/-- Verification infrastructure: the `BranchIndex` of the sub-branch that the
octant `b` of a branch stored at key `k` refers to. -/
def childKey (k : BranchIndex) (b : Fin 2 × Fin 2 × Fin 2) : BranchIndex :=
  { base := { x := k.base.x + 2 ^ (k.height - 1) * (b.1 : Nat)
              y := k.base.y + 2 ^ (k.height - 1) * (b.2.1 : Nat)
              z := k.base.z + 2 ^ (k.height - 1) * (b.2.2 : Nat) }
    height := k.height - 1 }

/-- Shape of the keys that can occur in the branch map of a tree of height
`H`: heights in `[1, H]`, only the root at height `H`, and the base aligned
to `2 ^ height` on every axis. -/
def keyOK (H : Nat) (k : BranchIndex) : Prop :=
  1 ≤ k.height ∧ k.height ≤ H ∧ (k.height = H → k = BranchIndex.root H) ∧
  k.base.x % 2 ^ k.height = 0 ∧ k.base.y % 2 ^ k.height = 0 ∧ k.base.z % 2 ^ k.height = 0

/-- Structural well-formedness of a tree state (established by `new` and
preserved by every public operation): positive height (the root is always a
branch), height small enough that `u32` arithmetic does not overflow, the
root entry present, all keys well-shaped, and every `Branch` child referring
to a present sub-branch strictly below it (so in particular no branch at
height `1` has a `Branch` child). -/
structure WFcore (t : OctreeBitmap) : Prop where
  hpos : 1 ≤ t.height
  hle : t.height ≤ 31
  nodup : (t.branches.map Prod.fst).Nodup
  root_mem : (Store.find? t.branches (BranchIndex.root t.height)).isSome
  keys_ok : ∀ kv ∈ t.branches, keyOK t.height kv.1
  child_link : ∀ kv ∈ t.branches, ∀ b : Fin 2 × Fin 2 × Fin 2,
    kv.2.childAt b = RawNode.Branch →
      2 ≤ kv.1.height ∧ (Store.find? t.branches (childKey kv.1 b)).isSome

/-- A branch whose 8 children all equal the same terminal value. -/
def Branch.uniformTerminal (br : Branch) : Prop :=
  ∃ s, s ≠ RawNode.Branch ∧ br = Branch.uniform s

/-- Canonical (maximally compressed) form as the code maintains it: no entry
other than the root is a branch with 8 identical terminal children.  (The
root is excluded: `compress` intentionally never collapses it, and e.g. a
fresh tree's root has 8 `False` children.) -/
def Canonical (t : OctreeBitmap) : Prop :=
  ∀ kv ∈ t.branches, kv.1 ≠ BranchIndex.root t.height → ¬ kv.2.uniformTerminal

/-- Canonical form allowing one exception at the key `e` (the node currently
being worked on by an in-progress mutation). -/
def CanonExceptAt (t : OctreeBitmap) (e : BranchIndex) : Prop :=
  ∀ kv ∈ t.branches, kv.1 ≠ BranchIndex.root t.height → kv.1 ≠ e →
    ¬ kv.2.uniformTerminal

/-- Canonical form allowing one exception at the key `e`, whose uniform value
(if the exception is real) is moreover not the desired value `d` of the write
in progress. -/
def CanonExceptNe (t : OctreeBitmap) (e : BranchIndex) (d : RawNode) : Prop :=
  ∀ kv ∈ t.branches, kv.1 ≠ BranchIndex.root t.height →
    ∀ s, s ≠ RawNode.Branch → kv.2 = Branch.uniform s → kv.1 = e ∧ s ≠ d

/-- Full invariant of reachable tree states. -/
def WF (t : OctreeBitmap) : Prop := WFcore t ∧ Canonical t

-- ## Arithmetic of coordinate addressing

theorem clearLow_small (x h : Nat) (hh : h ≤ 31) : clearLow x h = x / 2 ^ h * 2 ^ h := by
  unfold clearLow
  rw [Nat.mod_eq_of_lt (by omega)]

theorem clearLow_le (x h : Nat) : clearLow x h ≤ x := Nat.div_mul_le_self x _

theorem clearLow_align (x h : Nat) (hh : h ≤ 31) : clearLow x h % 2 ^ h = 0 := by
  rw [clearLow_small x h hh]
  exact Nat.mul_mod_left _ _

theorem branchAt_height (i : Index) (h : Nat) : (i.branchAt h).height = h := rfl

theorem bit_x (i : Index) (h : Nat) : ((i.bit h).1 : Nat) = i.x / 2 ^ h % 2 := by
  simp [Index.bit, Nat.shiftRight_eq_div_pow]

theorem bit_y (i : Index) (h : Nat) : ((i.bit h).2.1 : Nat) = i.y / 2 ^ h % 2 := by
  simp [Index.bit, Nat.shiftRight_eq_div_pow]

theorem bit_z (i : Index) (h : Nat) : ((i.bit h).2.2 : Nat) = i.z / 2 ^ h % 2 := by
  simp [Index.bit, Nat.shiftRight_eq_div_pow]

theorem bit_eq_iff (i j : Index) (h : Nat) :
    i.bit h = j.bit h ↔
      (i.x / 2 ^ h % 2 = j.x / 2 ^ h % 2 ∧ i.y / 2 ^ h % 2 = j.y / 2 ^ h % 2 ∧
        i.z / 2 ^ h % 2 = j.z / 2 ^ h % 2) := by
  simp [Index.bit, Prod.ext_iff, Fin.ext_iff, Nat.shiftRight_eq_div_pow]

theorem branchAt_eq_iff (i j : Index) (h : Nat) (hh : h ≤ 31) :
    i.branchAt h = j.branchAt h ↔
      (i.x / 2 ^ h = j.x / 2 ^ h ∧ i.y / 2 ^ h = j.y / 2 ^ h ∧ i.z / 2 ^ h = j.z / 2 ^ h) := by
  have hpow : 0 < 2 ^ h := Nat.pos_pow_of_pos h (by omega)
  simp only [Index.branchAt, BranchIndex.mk.injEq, Index.mk.injEq, and_true,
    clearLow_small _ h hh]
  constructor
  · rintro ⟨h1, h2, h3⟩
    exact ⟨Nat.eq_of_mul_eq_mul_right hpow h1, Nat.eq_of_mul_eq_mul_right hpow h2,
      Nat.eq_of_mul_eq_mul_right hpow h3⟩
  · rintro ⟨h1, h2, h3⟩
    rw [h1, h2, h3]
    exact ⟨rfl, rfl, rfl⟩

theorem branchAt_eq_root_iff (i : Index) (h : Nat) (hh : h ≤ 31) :
    i.branchAt h = BranchIndex.root h ↔ (i.x < 2 ^ h ∧ i.y < 2 ^ h ∧ i.z < 2 ^ h) := by
  have hpow : 0 < 2 ^ h := Nat.pos_pow_of_pos h (by omega)
  have axis : ∀ x : Nat, (x / 2 ^ h * 2 ^ h = 0 ↔ x < 2 ^ h) := by
    intro x
    constructor
    · intro hx
      by_contra hge
      have h1 : 1 ≤ x / 2 ^ h := (Nat.one_le_div_iff hpow).mpr (by omega)
      have : 2 ^ h ≤ x / 2 ^ h * 2 ^ h := by
        calc 2 ^ h = 1 * 2 ^ h := by ring
          _ ≤ x / 2 ^ h * 2 ^ h := Nat.mul_le_mul_right _ h1
      omega
    · intro hx
      rw [Nat.div_eq_of_lt hx, Nat.zero_mul]
  simp only [Index.branchAt, BranchIndex.root, BranchIndex.mk.injEq, Index.mk.injEq, and_true,
    clearLow_small _ h hh, axis]

theorem div_pow_succ (x h : Nat) : x / 2 ^ h / 2 = x / 2 ^ (h + 1) := by
  rw [Nat.div_div_eq_div_mul, Nat.pow_succ]

/-- The step relation between the owning branches of `i` at consecutive
heights: agreeing at height `h - 1` is agreeing at height `h` plus agreeing
on the octant bits at `h - 1`. -/
theorem branchAt_pred_eq_iff (i j : Index) (h : Nat) (h1 : 1 ≤ h) (hh : h ≤ 31) :
    i.branchAt (h - 1) = j.branchAt (h - 1) ↔
      (i.branchAt h = j.branchAt h ∧ i.bit (h - 1) = j.bit (h - 1)) := by
  rw [branchAt_eq_iff _ _ _ (by omega), branchAt_eq_iff _ _ _ hh, bit_eq_iff]
  have hsplit : ∀ x y : Nat, (x / 2 ^ (h - 1) = y / 2 ^ (h - 1)) ↔
      (x / 2 ^ h = y / 2 ^ h ∧ x / 2 ^ (h - 1) % 2 = y / 2 ^ (h - 1) % 2) := by
    intro x y
    have hx : x / 2 ^ (h - 1) / 2 = x / 2 ^ h := by
      rw [div_pow_succ, show h - 1 + 1 = h from by omega]
    have hy : y / 2 ^ (h - 1) / 2 = y / 2 ^ h := by
      rw [div_pow_succ, show h - 1 + 1 = h from by omega]
    rw [← hx, ← hy]
    omega
  rw [hsplit, hsplit, hsplit]
  tauto

/-- Descending from the branch owning `i` at height `h` through the octant of
`i` lands exactly at the branch owning `i` at height `h - 1`. -/
theorem childKey_branchAt (i : Index) (h : Nat) (h1 : 1 ≤ h) (hh : h ≤ 31) :
    childKey (i.branchAt h) (i.bit (h - 1)) = i.branchAt (h - 1) := by
  have axis : ∀ x : Nat,
      x / 2 ^ h * 2 ^ h + 2 ^ (h - 1) * (x / 2 ^ (h - 1) % 2) =
        x / 2 ^ (h - 1) * 2 ^ (h - 1) := by
    intro x
    have hstep : x / 2 ^ (h - 1) / 2 = x / 2 ^ h := by
      rw [div_pow_succ, show h - 1 + 1 = h from by omega]
    have hp : 2 ^ h = 2 ^ (h - 1) * 2 := by
      rw [← Nat.pow_succ]
      congr 1
      omega
    set a := x / 2 ^ (h - 1) with ha
    have hmod : 2 * (a / 2) + a % 2 = a := by omega
    calc x / 2 ^ h * 2 ^ h + 2 ^ (h - 1) * (a % 2)
        = a / 2 * (2 ^ (h - 1) * 2) + 2 ^ (h - 1) * (a % 2) := by rw [← hstep, ← hp]
      _ = 2 ^ (h - 1) * (2 * (a / 2) + a % 2) := by ring
      _ = 2 ^ (h - 1) * a := by rw [hmod]
      _ = a * 2 ^ (h - 1) := by ring
  simp only [childKey, Index.branchAt, branchAt_height, BranchIndex.mk.injEq, Index.mk.injEq,
    clearLow_small _ h hh, clearLow_small _ (h - 1) (by omega), bit_x, bit_y, bit_z]
  refine ⟨⟨?_, ?_, ?_⟩, trivial⟩ <;> first
    | exact axis i.x
    | exact axis i.y
    | exact axis i.z

/-- A well-shaped key of height `h + 1` whose octant `b` refers to the branch
owning `i` at height `h` must be the branch owning `i` at height `h + 1`,
through the octant of `i`. -/
theorem childKey_unique (k : BranchIndex) (b : Fin 2 × Fin 2 × Fin 2) (i : Index) (h : Nat)
    (hk : k.height = h + 1) (hh : h + 1 ≤ 31)
    (hax : k.base.x % 2 ^ (h + 1) = 0) (hay : k.base.y % 2 ^ (h + 1) = 0)
    (haz : k.base.z % 2 ^ (h + 1) = 0)
    (heq : childKey k b = i.branchAt h) :
    k = i.branchAt (h + 1) ∧ b = i.bit h := by
  have axis : ∀ v e x : Nat, e < 2 → v % 2 ^ (h + 1) = 0 →
      v + 2 ^ h * e = x / 2 ^ h * 2 ^ h →
      (v = x / 2 ^ (h + 1) * 2 ^ (h + 1) ∧ e = x / 2 ^ h % 2) := by
    intro v e x he hv hsum
    set a := x / 2 ^ h with ha
    have hva : v = 2 ^ (h + 1) * (v / 2 ^ (h + 1)) :=
      (Nat.div_mul_cancel (Nat.dvd_of_mod_eq_zero hv)).symm.trans (Nat.mul_comm _ _)
    set q := v / 2 ^ (h + 1) with hq
    have hps : (2 : Nat) ^ (h + 1) = 2 ^ h * 2 := by rw [Nat.pow_succ]
    have hkey : 2 ^ h * (2 * q + e) = 2 ^ h * a := by
      calc 2 ^ h * (2 * q + e) = 2 ^ h * 2 * q + 2 ^ h * e := by ring
        _ = v + 2 ^ h * e := by rw [← hps, ← hva]
        _ = a * 2 ^ h := hsum
        _ = 2 ^ h * a := by ring
    have hpow : 0 < 2 ^ h := Nat.pos_pow_of_pos h (by omega)
    have h2qe : 2 * q + e = a := by
      have := Nat.eq_of_mul_eq_mul_left hpow hkey
      omega
    have hq2 : q = a / 2 ∧ e = a % 2 := by omega
    have hdiv : a / 2 = x / 2 ^ (h + 1) := div_pow_succ x h
    constructor
    · rw [hva, hq2.1, hdiv]
      ring
    · exact hq2.2
  have hx := axis k.base.x (b.1 : Nat) i.x (b.1.isLt) hax (by
    have := congrArg (fun kk => kk.base.x) heq
    simpa [childKey, Index.branchAt, clearLow_small _ h (by omega), hk,
      Nat.add_sub_cancel] using this)
  have hy := axis k.base.y (b.2.1 : Nat) i.y (b.2.1.isLt) hay (by
    have := congrArg (fun kk => kk.base.y) heq
    simpa [childKey, Index.branchAt, clearLow_small _ h (by omega), hk,
      Nat.add_sub_cancel] using this)
  have hz := axis k.base.z (b.2.2 : Nat) i.z (b.2.2.isLt) haz (by
    have := congrArg (fun kk => kk.base.z) heq
    simpa [childKey, Index.branchAt, clearLow_small _ h (by omega), hk,
      Nat.add_sub_cancel] using this)
  constructor
  · have hb : k.base = (i.branchAt (h + 1)).base := by
      simp only [Index.branchAt, clearLow_small _ (h + 1) hh]
      cases hbase : k.base
      simp only [Index.mk.injEq]
      refine ⟨?_, ?_, ?_⟩
      · have := hx.1
        simp [hbase] at this
        simpa using this
      · have := hy.1
        simp [hbase] at this
        simpa using this
      · have := hz.1
        simp [hbase] at this
        simpa using this
    cases k
    cases hk
    cases hb
    rfl
  · have h1 := hx.2
    have h2 := hy.2
    have h3 := hz.2
    cases b with
    | mk b1 b23 =>
      cases b23 with
      | mk b2 b3 =>
        simp only [Index.bit, Prod.mk.injEq]
        refine ⟨Fin.ext ?_, Fin.ext ?_, Fin.ext ?_⟩
        · simpa [Nat.shiftRight_eq_div_pow] using h1
        · simpa [Nat.shiftRight_eq_div_pow] using h2
        · simpa [Nat.shiftRight_eq_div_pow] using h3

-- ## Association-list (HashMap model) lemmas

theorem Store.find?_some_mem {m : Store} {k : BranchIndex} {v : Branch}
    (h : Store.find? m k = some v) : (k, v) ∈ m := by
  induction m with
  | nil => simp [Store.find?] at h
  | cons kv m ih =>
    unfold Store.find? at h
    by_cases hk : k = kv.1
    · rw [if_pos hk, Option.some.injEq] at h
      rw [hk, ← h]
      exact List.mem_cons_self _ _
    · rw [if_neg hk] at h
      exact List.mem_cons_of_mem _ (ih h)

theorem Store.find?_eq_none {m : Store} {k : BranchIndex}
    (h : ∀ kv ∈ m, kv.1 ≠ k) : Store.find? m k = none := by
  induction m with
  | nil => rfl
  | cons kv m ih =>
    unfold Store.find?
    rw [if_neg fun he => h kv (List.mem_cons_self _ _) he.symm]
    exact ih fun kv' hkv' => h kv' (List.mem_cons_of_mem _ hkv')

theorem Store.mem_erase {m : Store} {k : BranchIndex} {kv : BranchIndex × Branch} :
    kv ∈ m.erase k ↔ kv ∈ m ∧ kv.1 ≠ k := by
  simp [Store.erase, List.mem_filter]

theorem Store.mem_insert {m : Store} {k : BranchIndex} {v : Branch}
    {kv : BranchIndex × Branch} :
    kv ∈ m.insert k v ↔ kv = (k, v) ∨ (kv ∈ m ∧ kv.1 ≠ k) := by
  simp [Store.insert, Store.mem_erase]

theorem Store.mem_modify {m : Store} {k : BranchIndex} {f : Branch → Branch}
    {kv : BranchIndex × Branch} :
    kv ∈ m.modify k f ↔
      ∃ kv' ∈ m, kv = if kv'.1 = k then (k, f kv'.2) else kv' := by
  simp only [Store.modify, List.mem_map]
  constructor
  · rintro ⟨kv', hm, he⟩
    exact ⟨kv', hm, he.symm⟩
  · rintro ⟨kv', hm, he⟩
    exact ⟨kv', hm, he.symm⟩

theorem Store.find?_erase (m : Store) (k k' : BranchIndex) :
    Store.find? (Store.erase m k) k' = if k' = k then none else Store.find? m k' := by
  induction m with
  | nil => simp [Store.erase, Store.find?]
  | cons kv m ih =>
    by_cases hk : kv.1 = k
    · have hcons : Store.erase (kv :: m) k = Store.erase m k := by
        simp [Store.erase, List.filter_cons, hk]
      rw [hcons, ih]
      by_cases h' : k' = k
      · simp [h']
      · rw [if_neg h', if_neg h']
        have hne : ¬ k' = kv.1 := fun he => h' (he.trans hk)
        simp only [Store.find?, if_neg hne]
    · have hcons : Store.erase (kv :: m) k = kv :: Store.erase m k := by
        simp [Store.erase, List.filter_cons, hk]
      rw [hcons]
      by_cases h' : k' = kv.1
      · have hne : ¬ k' = k := fun he => hk (by rw [← h', he])
        simp only [Store.find?, if_pos h', if_neg hne]
      · simp only [Store.find?, if_neg h']
        rw [ih]

theorem Store.find?_insert (m : Store) (k : BranchIndex) (v : Branch) (k' : BranchIndex) :
    Store.find? (Store.insert m k v) k' = if k' = k then some v else Store.find? m k' := by
  unfold Store.insert
  simp only [Store.find?]
  by_cases h' : k' = k
  · simp [h']
  · rw [if_neg h', if_neg h', Store.find?_erase, if_neg h']

theorem Store.find?_modify (m : Store) (k : BranchIndex) (f : Branch → Branch)
    (k' : BranchIndex) :
    Store.find? (Store.modify m k f) k' =
      if k' = k then (Store.find? m k).map f else Store.find? m k' := by
  induction m with
  | nil => simp [Store.modify, Store.find?]
  | cons kv m ih =>
    by_cases hk : kv.1 = k
    · have hcons : Store.modify (kv :: m) k f = (k, f kv.2) :: Store.modify m k f := by
        simp [Store.modify, hk]
      rw [hcons]
      by_cases h' : k' = k
      · subst h'
        have hk' : k' = kv.1 := hk.symm
        simp only [Store.find?, if_pos rfl, if_pos hk']
        rfl
      · simp only [Store.find?, if_neg h']
        rw [ih, if_neg h', if_neg fun he => h' (he.trans hk)]
    · have hcons : Store.modify (kv :: m) k f = kv :: Store.modify m k f := by
        simp [Store.modify, hk]
      rw [hcons]
      by_cases h' : k' = kv.1
      · have hne : ¬ k' = k := fun he => hk (by rw [← h', he])
        simp only [Store.find?, if_pos h', if_neg hne]
      · simp only [Store.find?, if_neg h']
        rw [ih]
        by_cases h'' : k' = k
        · rw [if_pos h'', if_pos h'']
          have hne : ¬ k = kv.1 := fun he => hk he.symm
          simp only [Store.find?, if_neg hne]
        · rw [if_neg h'', if_neg h'']

-- ## Branch and RawNode helpers

theorem RawNode.ofBool_ne_Branch (v : Bool) : RawNode.ofBool v ≠ RawNode.Branch := by
  cases v <;> simp [RawNode.ofBool]

theorem Branch.childAt_uniform (s : RawNode) (b : Fin 2 × Fin 2 × Fin 2) :
    (Branch.uniform s).childAt b = s := rfl

theorem Branch.childAt_setChild_self (br : Branch) (b : Fin 2 × Fin 2 × Fin 2) (v : RawNode) :
    (br.setChild b v).childAt b = v := by
  simp [Branch.setChild, Branch.childAt]

theorem Branch.childAt_setChild_ne (br : Branch) (b b' : Fin 2 × Fin 2 × Fin 2) (v : RawNode)
    (hne : b' ≠ b) : (br.setChild b v).childAt b' = br.childAt b' := by
  have : ¬ (b'.2.2 = b.2.2 ∧ b'.2.1 = b.2.1 ∧ b'.1 = b.1) := by
    intro ⟨h1, h2, h3⟩
    exact hne (Prod.ext h3 (Prod.ext h2 h1))
  simp [Branch.setChild, Branch.childAt, this]

theorem Branch.eq_uniform_iff (br : Branch) (s : RawNode) :
    br = Branch.uniform s ↔ ∀ b : Fin 2 × Fin 2 × Fin 2, br.childAt b = s := by
  constructor
  · intro h b
    rw [h]
    rfl
  · intro h
    cases br with
    | mk c =>
      have : c = fun _ _ _ => s := by
        funext z y x
        exact h (x, y, z)
      rw [Branch.uniform, this]

theorem Branch.childAt_of_eq_uniform {br : Branch} {s : RawNode}
    (h : br = Branch.uniform s) (b : Fin 2 × Fin 2 × Fin 2) : br.childAt b = s := by
  rw [h]
  rfl

-- ## Probe and descent-loop lemmas

theorem probe_succ (t : OctreeBitmap) (idx : Index) (ch : Nat) :
    t.probe idx (ch + 1) =
      (Store.find? t.branches (idx.branchAt (ch + 1))).map
        (fun br => br.childAt (idx.bit ch)) := rfl

theorem getLoop_eq (t : OctreeBitmap) (idx : Index) (ch : Nat) :
    t.getLoop idx (ch + 1) =
      match Store.find? t.branches (idx.branchAt (ch + 1)) with
      | none => none
      | some br =>
        match br.childAt (idx.bit ch) with
        | RawNode.False => some false
        | RawNode.True => some true
        | RawNode.Branch => if ch = 0 then none else t.getLoop idx ch := rfl

theorem getLoop_succ (t : OctreeBitmap) (idx : Index) (ch : Nat) :
    t.getLoop idx (ch + 1) =
      match t.probe idx (ch + 1) with
      | none => none
      | some RawNode.False => some false
      | some RawNode.True => some true
      | some RawNode.Branch => if ch = 0 then none else t.getLoop idx ch := by
  rw [getLoop_eq, probe_succ]
  cases Store.find? t.branches (idx.branchAt (ch + 1)) with
  | none => rfl
  | some br => cases hbr : br.childAt (idx.bit ch) <;> simp [hbr, Option.map]

theorem getLoop_congr_from (t t' : OctreeBitmap) (idx : Index) (c : Nat) (hc : 1 ≤ c) :
    ∀ h, c ≤ h →
      (∀ j, c < j → j ≤ h → t.probe idx j = t'.probe idx j) →
      t.getLoop idx c = t'.getLoop idx c →
      t.getLoop idx h = t'.getLoop idx h := by
  intro h
  induction h with
  | zero => intro hch _ _; omega
  | succ k ih =>
    intro hch hpr hbase
    by_cases hck : c = k + 1
    · exact hck ▸ hbase
    · have hck' : c ≤ k := by omega
      have hpk := hpr (k + 1) (by omega) (Nat.le_refl _)
      rw [getLoop_succ, getLoop_succ, hpk]
      cases hp : t'.probe idx (k + 1) with
      | none => rfl
      | some s =>
        cases s
        · rfl
        · rfl
        · have hk0 : ¬ k = 0 := by omega
          simp only [if_neg hk0]
          exact ih hck' (fun j hj1 hj2 => hpr j hj1 (by omega)) hbase

theorem getLoop_of_branch_above (t : OctreeBitmap) (idx : Index) (c : Nat) (hc : 1 ≤ c) :
    ∀ h, c ≤ h →
      (∀ j, c < j → j ≤ h → t.probe idx j = some RawNode.Branch) →
      t.getLoop idx h = t.getLoop idx c := by
  intro h
  induction h with
  | zero => intro hch _; omega
  | succ k ih =>
    intro hch hpr
    by_cases hck : c = k + 1
    · rw [hck]
    · have hck' : c ≤ k := by omega
      have hpk := hpr (k + 1) (by omega) (Nat.le_refl _)
      rw [getLoop_succ, hpk]
      have hk0 : ¬ k = 0 := by omega
      simp only [if_neg hk0]
      exact ih hck' fun j hj1 hj2 => hpr j hj1 (by omega)

theorem getLoop_one (t : OctreeBitmap) (idx : Index) :
    t.getLoop idx 1 =
      match t.probe idx 1 with
      | some RawNode.False => some false
      | some RawNode.True => some true
      | _ => none := by
  rw [getLoop_succ]
  cases hp : t.probe idx 1 with
  | none => rfl
  | some s => cases s <;> rfl

-- ## Width, range and small helper lemmas

theorem width_eq (t : OctreeBitmap) (hle : t.height ≤ 31) : t.width = 2 ^ t.height := by
  unfold OctreeBitmap.width
  rw [Nat.mod_eq_of_lt (by omega), Nat.shiftLeft_eq, Nat.one_mul]

theorem inRange_iff (t : OctreeBitmap) (idx : Index) (hle : t.height ≤ 31) :
    t.inRange idx ↔
      (idx.x < 2 ^ t.height ∧ idx.y < 2 ^ t.height ∧ idx.z < 2 ^ t.height) := by
  unfold OctreeBitmap.inRange
  rw [width_eq t hle]

theorem branchAt_ne_height {i i' : Index} {j a : Nat} (h : j ≠ a) :
    i.branchAt j ≠ i'.branchAt a :=
  fun he => h (congrArg BranchIndex.height he)

theorem branchAt_ne_root_height {i : Index} {j a : Nat} (h : j ≠ a) :
    i.branchAt j ≠ BranchIndex.root a :=
  fun he => h (congrArg BranchIndex.height he)

theorem exists_ofBool (s : RawNode) (hs : s ≠ RawNode.Branch) :
    ∃ v : Bool, s = RawNode.ofBool v := by
  cases s
  · exact ⟨false, rfl⟩
  · exact ⟨true, rfl⟩
  · exact absurd rfl hs

theorem getLoop_terminal (t : OctreeBitmap) (idx : Index) (c : Nat) (hc : 1 ≤ c) (v : Bool)
    (hp : t.probe idx c = some (RawNode.ofBool v)) : t.getLoop idx c = some v := by
  obtain ⟨cm, rfl⟩ : ∃ cm, c = cm + 1 := ⟨c - 1, by omega⟩
  rw [getLoop_succ, hp]
  cases v <;> rfl

theorem probe_eq_some_iff (t : OctreeBitmap) (idx : Index) (j : Nat) (s : RawNode) :
    t.probe idx j = some s ↔
      ∃ br, Store.find? t.branches (idx.branchAt j) = some br ∧
        br.childAt (idx.bit (j - 1)) = s := by
  unfold OctreeBitmap.probe
  cases Store.find? t.branches (idx.branchAt j) with
  | none => simp
  | some br => simp

-- ## The compression step preserves every lookup

theorem compress_step_get (t : OctreeBitmap) (idx : Index) (state : RawNode)
    (hstate : state ≠ RawNode.Branch) (ch : Nat)
    (hch : 1 ≤ ch) (hchH : ch < t.height) (hle : t.height ≤ 31)
    (hbr : Store.find? t.branches (idx.branchAt ch) = some (Branch.uniform state))
    (hparent : t.probe idx (ch + 1) = some RawNode.Branch) (idx2 : Index) :
    OctreeBitmap.getLoop
      ⟨Store.modify (Store.erase t.branches (idx.branchAt ch)) (idx.branchAt (ch + 1))
        (fun q => q.setChild (idx.bit ch) state), t.height⟩ idx2 t.height =
      t.getLoop idx2 t.height := by
  obtain ⟨p, hp, hpchild⟩ := (probe_eq_some_iff t idx (ch + 1) RawNode.Branch).mp hparent
  rw [Nat.add_sub_cancel] at hpchild
  set t2 : OctreeBitmap :=
    ⟨Store.modify (Store.erase t.branches (idx.branchAt ch)) (idx.branchAt (ch + 1))
      (fun q => q.setChild (idx.bit ch) state), t.height⟩ with ht2
  have ht2br : t2.branches =
      Store.modify (Store.erase t.branches (idx.branchAt ch)) (idx.branchAt (ch + 1))
        (fun q => q.setChild (idx.bit ch) state) := rfl
  have hprobe_ne : ∀ j, j ≠ ch → j ≠ ch + 1 → t2.probe idx2 j = t.probe idx2 j := by
    intro j hj1 hj2
    unfold OctreeBitmap.probe
    rw [ht2br, Store.find?_modify, if_neg (branchAt_ne_height hj2),
      Store.find?_erase, if_neg (branchAt_ne_height hj1)]
  by_cases hmatch : idx2.branchAt ch = idx.branchAt ch
  · have hsplit := (branchAt_pred_eq_iff idx2 idx (ch + 1) (by omega) (by omega)).mp
      (by rw [Nat.add_sub_cancel]; exact hmatch)
    rw [Nat.add_sub_cancel] at hsplit
    obtain ⟨hP, hbit⟩ := hsplit
    obtain ⟨v, rfl⟩ := exists_ofBool state hstate
    have hbase : t2.getLoop idx2 (ch + 1) = t.getLoop idx2 (ch + 1) := by
      have hL : t2.probe idx2 (ch + 1) = some (RawNode.ofBool v) := by
        unfold OctreeBitmap.probe
        rw [ht2br, Store.find?_modify, if_pos hP, Store.find?_erase,
          if_neg (branchAt_ne_height (by omega)), hp]
        simp only [Option.map_some', Option.some.injEq, Nat.add_sub_cancel, hbit]
        exact Branch.childAt_setChild_self _ _ _
      have hR : t.getLoop idx2 (ch + 1) = some v := by
        have hpr : t.probe idx2 (ch + 1) = some RawNode.Branch := by
          unfold OctreeBitmap.probe
          rw [hP, hp]
          simp only [Option.map_some', Option.some.injEq, Nat.add_sub_cancel, hbit]
          exact hpchild
        rw [getLoop_succ, hpr, if_neg (by omega)]
        have hprc : t.probe idx2 ch = some (RawNode.ofBool v) := by
          unfold OctreeBitmap.probe
          rw [hmatch, hbr]
          simp only [Option.map_some', Option.some.injEq]
          exact Branch.childAt_uniform _ _
        exact getLoop_terminal t idx2 ch hch v hprc
      rw [hR, getLoop_terminal t2 idx2 (ch + 1) (by omega) v hL]
    exact getLoop_congr_from t2 t idx2 (ch + 1) (by omega) t.height (by omega)
      (fun j h1 h2 => hprobe_ne j (by omega) (by omega)) hbase
  · have hall : ∀ j, 1 ≤ j → j ≤ t.height → t2.probe idx2 j = t.probe idx2 j := by
      intro j h1 h2
      by_cases hjc : j = ch
      · subst hjc
        unfold OctreeBitmap.probe
        rw [ht2br, Store.find?_modify, if_neg (branchAt_ne_height (by omega)),
          Store.find?_erase, if_neg hmatch]
      · by_cases hjc1 : j = ch + 1
        · subst hjc1
          unfold OctreeBitmap.probe
          rw [ht2br, Store.find?_modify]
          by_cases hP : idx2.branchAt (ch + 1) = idx.branchAt (ch + 1)
          · rw [if_pos hP, Store.find?_erase, if_neg (branchAt_ne_height (by omega)), hP, hp]
            have hbitne : idx2.bit ch ≠ idx.bit ch := by
              intro hbit
              apply hmatch
              have hres := (branchAt_pred_eq_iff idx2 idx (ch + 1) (by omega) (by omega)).mpr
                (by rw [Nat.add_sub_cancel]; exact ⟨hP, hbit⟩)
              rw [Nat.add_sub_cancel] at hres
              exact hres
            simp only [Option.map_some', Nat.add_sub_cancel]
            rw [Branch.childAt_setChild_ne _ _ _ _ hbitne]
          · rw [if_neg hP, Store.find?_erase, if_neg (branchAt_ne_height (by omega))]
        · exact hprobe_ne j hjc hjc1
    have hbase : t2.getLoop idx2 1 = t.getLoop idx2 1 := by
      rw [getLoop_one, getLoop_one, hall 1 (by omega) (by omega)]
    exact getLoop_congr_from t2 t idx2 1 (by omega) t.height (by omega)
      (fun j h1 h2 => hall j (by omega) h2) hbase

-- ## Key-distinctness lemmas for the store

theorem key_ne_of_height {k k' : BranchIndex} (h : k.height ≠ k'.height) : k ≠ k' :=
  fun he => h (congrArg BranchIndex.height he)

theorem Store.keys_modify (m : Store) (k : BranchIndex) (f : Branch → Branch) :
    (Store.modify m k f).map Prod.fst = m.map Prod.fst := by
  unfold Store.modify
  rw [List.map_map]
  apply List.map_congr_left
  intro kv _
  by_cases hk : kv.1 = k
  · simp [hk]
  · simp [hk]

theorem Store.nodup_modify {m : Store} (k : BranchIndex) (f : Branch → Branch)
    (h : (m.map Prod.fst).Nodup) : ((Store.modify m k f).map Prod.fst).Nodup := by
  rw [Store.keys_modify]
  exact h

theorem Store.nodup_erase {m : Store} (k : BranchIndex)
    (h : (m.map Prod.fst).Nodup) : ((Store.erase m k).map Prod.fst).Nodup := by
  unfold Store.erase
  exact h.sublist (List.Sublist.map _ (List.filter_sublist m))

theorem Store.nodup_insert {m : Store} (k : BranchIndex) (v : Branch)
    (h : (m.map Prod.fst).Nodup) : ((Store.insert m k v).map Prod.fst).Nodup := by
  unfold Store.insert
  rw [List.map_cons]
  refine List.Nodup.cons ?_ (Store.nodup_erase k h)
  intro hmem
  obtain ⟨kv, hkv, hfst⟩ := List.mem_map.mp hmem
  exact (Store.mem_erase.mp hkv).2 hfst

theorem Store.find?_eq_of_mem {m : Store} {k : BranchIndex} {v : Branch}
    (hnd : (m.map Prod.fst).Nodup) (hmem : (k, v) ∈ m) : Store.find? m k = some v := by
  induction m with
  | nil => cases hmem
  | cons kv m ih =>
    rw [List.map_cons, List.nodup_cons] at hnd
    rcases List.mem_cons.mp hmem with he | hm
    · rw [← he]
      unfold Store.find?
      rw [if_pos rfl]
    · have hk : ¬ k = kv.1 := by
        intro hkk
        exact hnd.1 (List.mem_map.mpr ⟨(k, v), hm, hkk⟩)
      unfold Store.find?
      rw [if_neg hk]
      exact ih hnd.2 hm

-- ## The compression step preserves the structural invariant

theorem root_ne_branchAt {i : Index} {H a : Nat} (h : H ≠ a) :
    BranchIndex.root H ≠ i.branchAt a :=
  fun he => h (congrArg BranchIndex.height he)

theorem compress_step_WFcore (t : OctreeBitmap) (idx : Index) (state : RawNode)
    (hstate : state ≠ RawNode.Branch) (ch : Nat) (hch : 1 ≤ ch) (hchH : ch < t.height)
    (hcore : WFcore t) {p : Branch}
    (hp : Store.find? t.branches (idx.branchAt (ch + 1)) = some p) :
    WFcore ⟨Store.modify (Store.erase t.branches (idx.branchAt ch)) (idx.branchAt (ch + 1))
      (fun q => q.setChild (idx.bit ch) state), t.height⟩ := by
  have hle := hcore.hle
  have hfq : ∀ k : BranchIndex, k ≠ idx.branchAt ch → k ≠ idx.branchAt (ch + 1) →
      Store.find? (Store.modify (Store.erase t.branches (idx.branchAt ch))
        (idx.branchAt (ch + 1)) (fun q => q.setChild (idx.bit ch) state)) k =
      Store.find? t.branches k := by
    intro k hk1 hk2
    rw [Store.find?_modify, if_neg hk2, Store.find?_erase, if_neg hk1]
  have hfP : Store.find? (Store.modify (Store.erase t.branches (idx.branchAt ch))
      (idx.branchAt (ch + 1)) (fun q => q.setChild (idx.bit ch) state))
      (idx.branchAt (ch + 1)) = some (p.setChild (idx.bit ch) state) := by
    rw [Store.find?_modify, if_pos rfl, Store.find?_erase,
      if_neg (branchAt_ne_height (by omega)), hp]
    rfl
  have hsome2 : ∀ k : BranchIndex, k ≠ idx.branchAt ch →
      (Store.find? t.branches k).isSome →
      (Store.find? (Store.modify (Store.erase t.branches (idx.branchAt ch))
        (idx.branchAt (ch + 1)) (fun q => q.setChild (idx.bit ch) state)) k).isSome := by
    intro k hk1 hks
    by_cases hk2 : k = idx.branchAt (ch + 1)
    · rw [hk2, hfP]
      rfl
    · rw [hfq k hk1 hk2]
      exact hks
  have hchildKey_ne : ∀ (k : BranchIndex) (b : Fin 2 × Fin 2 × Fin 2),
      keyOK t.height k → 2 ≤ k.height →
      (k = idx.branchAt (ch + 1) → b ≠ idx.bit ch) → childKey k b ≠ idx.branchAt ch := by
    intro k b hok h2 hbP heq
    by_cases hh : k.height = ch + 1
    · obtain ⟨-, -, -, hax, hay, haz⟩ := hok
      rw [hh] at hax hay haz
      obtain ⟨hkeq, hbeq⟩ := childKey_unique k b idx ch hh (by omega) hax hay haz heq
      exact hbP hkeq hbeq
    · exact key_ne_of_height (show k.height - 1 ≠ ch by omega) heq
  refine ⟨hcore.hpos, hle, ?_, ?_, ?_, ?_⟩
  · show (List.map Prod.fst (Store.modify (Store.erase t.branches (idx.branchAt ch))
      (idx.branchAt (ch + 1)) (fun q => q.setChild (idx.bit ch) state))).Nodup
    exact Store.nodup_modify _ _ (Store.nodup_erase _ hcore.nodup)
  · show (Store.find? (Store.modify (Store.erase t.branches (idx.branchAt ch))
      (idx.branchAt (ch + 1)) (fun q => q.setChild (idx.bit ch) state))
      (BranchIndex.root t.height)).isSome
    exact hsome2 _ (root_ne_branchAt (by omega)) hcore.root_mem
  · show ∀ kv ∈ Store.modify (Store.erase t.branches (idx.branchAt ch))
      (idx.branchAt (ch + 1)) (fun q => q.setChild (idx.bit ch) state), keyOK t.height kv.1
    intro kv hmem
    obtain ⟨kv', hkv'm, hkv'eq⟩ := Store.mem_modify.mp hmem
    obtain ⟨hkv't, hkv'K⟩ := Store.mem_erase.mp hkv'm
    by_cases hPk : kv'.1 = idx.branchAt (ch + 1)
    · rw [if_pos hPk] at hkv'eq
      have hok := hcore.keys_ok kv' hkv't
      rw [hPk] at hok
      rw [hkv'eq]
      exact hok
    · rw [if_neg hPk] at hkv'eq
      rw [hkv'eq]
      exact hcore.keys_ok kv' hkv't
  · show ∀ kv ∈ Store.modify (Store.erase t.branches (idx.branchAt ch))
      (idx.branchAt (ch + 1)) (fun q => q.setChild (idx.bit ch) state),
      ∀ b : Fin 2 × Fin 2 × Fin 2, kv.2.childAt b = RawNode.Branch →
        2 ≤ kv.1.height ∧
        (Store.find? (Store.modify (Store.erase t.branches (idx.branchAt ch))
          (idx.branchAt (ch + 1)) (fun q => q.setChild (idx.bit ch) state))
          (childKey kv.1 b)).isSome
    intro kv hmem b hb
    obtain ⟨kv', hkv'm, hkv'eq⟩ := Store.mem_modify.mp hmem
    obtain ⟨hkv't, hkv'K⟩ := Store.mem_erase.mp hkv'm
    by_cases hPk : kv'.1 = idx.branchAt (ch + 1)
    · rw [if_pos hPk] at hkv'eq
      by_cases hbb : b = idx.bit ch
      · rw [hkv'eq, hbb] at hb
        simp only [Branch.childAt_setChild_self] at hb
        exact absurd hb hstate
      · rw [hkv'eq] at hb
        simp only at hb
        rw [Branch.childAt_setChild_ne _ _ _ _ hbb] at hb
        obtain ⟨h2, hsome⟩ := hcore.child_link kv' hkv't b hb
        have hok := hcore.keys_ok kv' hkv't
        rw [hPk] at h2 hok
        have h2' : 2 ≤ kv.1.height := by
          rw [hkv'eq]
          exact h2
        refine ⟨h2', ?_⟩
        have hck : childKey kv.1 b ≠ idx.branchAt ch := by
          apply hchildKey_ne
          · rw [hkv'eq]
            exact hok
          · exact h2'
          · intro _
            exact hbb
        have hckk : childKey kv.1 b = childKey kv'.1 b := by rw [hkv'eq, hPk]
        apply hsome2 _ hck
        rw [hckk]
        exact hsome
    · rw [if_neg hPk] at hkv'eq
      rw [hkv'eq] at hb ⊢
      obtain ⟨h2, hsome⟩ := hcore.child_link kv' hkv't b hb
      refine ⟨h2, ?_⟩
      have hck : childKey kv'.1 b ≠ idx.branchAt ch := by
        apply hchildKey_ne
        · exact hcore.keys_ok kv' hkv't
        · exact h2
        · intro hkp
          exact absurd hkp hPk
      exact hsome2 _ hck hsome

-- ## Specification of the compression walk

theorem compressFrom_succ (idx : Index) (state : RawNode) (r ch : Nat) (t : OctreeBitmap) :
    OctreeBitmap.compressFrom idx state (r + 1) ch t =
      match Store.find? t.branches (idx.branchAt ch) with
      | none => none
      | some br =>
        if br = Branch.uniform state then
          match Store.find? (Store.erase t.branches (idx.branchAt ch))
              (idx.branchAt (ch + 1)) with
          | none => none
          | some _ =>
            OctreeBitmap.compressFrom idx state r (ch + 1)
              ⟨Store.modify (Store.erase t.branches (idx.branchAt ch)) (idx.branchAt (ch + 1))
                (fun q => q.setChild (idx.bit ch) state), t.height⟩
        else some t := rfl

theorem compressFrom_found (idx : Index) (state : RawNode) (r ch : Nat) (t : OctreeBitmap)
    {br : Branch} (hfind : Store.find? t.branches (idx.branchAt ch) = some br) :
    OctreeBitmap.compressFrom idx state (r + 1) ch t =
      if br = Branch.uniform state then
        match Store.find? (Store.erase t.branches (idx.branchAt ch))
            (idx.branchAt (ch + 1)) with
        | none => none
        | some _ =>
          OctreeBitmap.compressFrom idx state r (ch + 1)
            ⟨Store.modify (Store.erase t.branches (idx.branchAt ch)) (idx.branchAt (ch + 1))
              (fun q => q.setChild (idx.bit ch) state), t.height⟩
      else some t := by
  rw [compressFrom_succ, hfind]

theorem compressFrom_spec (idx : Index) (state : RawNode) (hstate : state ≠ RawNode.Branch) :
    ∀ (r ch : Nat) (t : OctreeBitmap), 1 ≤ ch → ch ≤ t.height → r = t.height - ch →
      WFcore t → t.inRange idx →
      (∃ br, Store.find? t.branches (idx.branchAt ch) = some br ∧
        br.childAt (idx.bit (ch - 1)) = state) →
      (∀ j, ch < j → j ≤ t.height → t.probe idx j = some RawNode.Branch) →
      CanonExceptAt t (idx.branchAt ch) →
      ∃ t', OctreeBitmap.compressFrom idx state r ch t = some t' ∧ t'.height = t.height ∧
        WFcore t' ∧ Canonical t' ∧
        (∀ idx2, t'.getLoop idx2 t.height = t.getLoop idx2 t.height) := by
  intro r
  induction r with
  | zero =>
    intro ch t hch hchH hr hcore hinR hbr habove hcanon
    have hcheq : ch = t.height := by omega
    have hrootEq : idx.branchAt t.height = BranchIndex.root t.height := by
      rw [branchAt_eq_root_iff _ _ hcore.hle]
      exact (inRange_iff t idx hcore.hle).mp hinR
    refine ⟨t, rfl, rfl, hcore, ?_, fun idx2 => rfl⟩
    intro kv hmem hroot
    exact hcanon kv hmem hroot (by rw [hcheq, hrootEq]; exact hroot)
  | succ r ih =>
    intro ch t hch hchH hr hcore hinR hbr habove hcanon
    have hchlt : ch < t.height := by omega
    obtain ⟨br, hfind, hchild⟩ := hbr
    rw [compressFrom_found idx state r ch t hfind]
    by_cases hU : br = Branch.uniform state
    · rw [if_pos hU]
      have hpar := habove (ch + 1) (by omega) (by omega)
      obtain ⟨p, hp, hpchild⟩ := (probe_eq_some_iff t idx (ch + 1) RawNode.Branch).mp hpar
      rw [Nat.add_sub_cancel] at hpchild
      have hm1P : Store.find? (Store.erase t.branches (idx.branchAt ch))
          (idx.branchAt (ch + 1)) = some p := by
        rw [Store.find?_erase, if_neg (branchAt_ne_height (by omega)), hp]
      rw [hm1P]
      have hcore2 := compress_step_WFcore t idx state hstate ch hch hchlt hcore hp
      have hbr2 : Store.find? (Store.modify (Store.erase t.branches (idx.branchAt ch))
          (idx.branchAt (ch + 1)) (fun q => q.setChild (idx.bit ch) state))
          (idx.branchAt (ch + 1)) = some (p.setChild (idx.bit ch) state) := by
        rw [Store.find?_modify, if_pos rfl, hm1P]
        rfl
      have habove2 : ∀ j, ch + 1 < j → j ≤ t.height →
          (Store.find? (Store.modify (Store.erase t.branches (idx.branchAt ch))
            (idx.branchAt (ch + 1)) (fun q => q.setChild (idx.bit ch) state))
            (idx.branchAt j)).map (fun b2 => b2.childAt (idx.bit (j - 1))) =
            some RawNode.Branch := by
        intro j hj1 hj2
        rw [Store.find?_modify, if_neg (branchAt_ne_height (by omega)),
          Store.find?_erase, if_neg (branchAt_ne_height (by omega))]
        exact habove j (by omega) hj2
      have hcanon2 : ∀ kv ∈ Store.modify (Store.erase t.branches (idx.branchAt ch))
          (idx.branchAt (ch + 1)) (fun q => q.setChild (idx.bit ch) state),
          kv.1 ≠ BranchIndex.root t.height → kv.1 ≠ idx.branchAt (ch + 1) →
          ¬ kv.2.uniformTerminal := by
        intro kv hmem hroot hne
        obtain ⟨kv', hkv'm, hkv'eq⟩ := Store.mem_modify.mp hmem
        obtain ⟨hkv't, hkv'K⟩ := Store.mem_erase.mp hkv'm
        by_cases hPk : kv'.1 = idx.branchAt (ch + 1)
        · rw [if_pos hPk] at hkv'eq
          exact absurd (by rw [hkv'eq]) hne
        · rw [if_neg hPk] at hkv'eq
          rw [hkv'eq]
          exact hcanon kv' hkv't (by rw [← hkv'eq]; exact hroot) hkv'K
      obtain ⟨t3, hrun, hh3, hcore3, hcanon3, hget3⟩ :=
        ih (ch + 1)
          ⟨Store.modify (Store.erase t.branches (idx.branchAt ch)) (idx.branchAt (ch + 1))
            (fun q => q.setChild (idx.bit ch) state), t.height⟩
          (by omega) (show ch + 1 ≤ t.height from by omega)
          (show r = t.height - (ch + 1) from by omega)
          hcore2 hinR
          ⟨p.setChild (idx.bit ch) state, hbr2,
            by rw [Nat.add_sub_cancel]; exact Branch.childAt_setChild_self _ _ _⟩
          habove2 hcanon2
      refine ⟨t3, hrun, hh3, hcore3, hcanon3, ?_⟩
      intro idx2
      rw [hget3 idx2]
      exact compress_step_get t idx state hstate ch hch hchlt hcore.hle (hU ▸ hfind) hpar idx2
    · rw [if_neg hU]
      refine ⟨t, rfl, rfl, hcore, ?_, fun idx2 => rfl⟩
      intro kv hmem hroot
      by_cases hkK : kv.1 = idx.branchAt ch
      · intro hut
        obtain ⟨s, hsB, hsu⟩ := hut
        have hkv2 : kv.2 = br := by
          have hfm := Store.find?_eq_of_mem hcore.nodup
            (show (kv.1, kv.2) ∈ t.branches from hmem)
          rw [hkK, hfind] at hfm
          exact Option.some.injEq _ _ ▸ hfm.symm ▸ rfl
        rw [hkv2] at hsu
        apply hU
        rw [hsu]
        have : s = state := by
          have := hchild
          rw [hsu] at this
          rw [Branch.childAt_of_eq_uniform rfl] at this
          rw [this]
        rw [this]
      · exact hcanon kv hmem hroot hkK

theorem compress_spec (t : OctreeBitmap) (idx : Index) (state : RawNode)
    (hstate : state ≠ RawNode.Branch) (hcore : WFcore t) (hinR : t.inRange idx)
    (hbr : ∃ br, Store.find? t.branches (idx.branchAt 1) = some br ∧
      br.childAt (idx.bit 0) = state)
    (habove : ∀ j, 1 < j → j ≤ t.height → t.probe idx j = some RawNode.Branch)
    (hcanon : CanonExceptAt t (idx.branchAt 1)) :
    ∃ t', t.compress idx state = some t' ∧ t'.height = t.height ∧ WFcore t' ∧ Canonical t' ∧
      (∀ idx2, t'.getLoop idx2 t.height = t.getLoop idx2 t.height) := by
  unfold OctreeBitmap.compress
  exact compressFrom_spec idx state hstate (t.height - 1) 1 t (by omega) hcore.hpos
    (by omega) hcore hinR hbr habove hcanon

-- ## Indices are determined by their octant path

theorem branchAt_zero_inj {i j : Index} (h : i.branchAt 0 = j.branchAt 0) : i = j := by
  have hx : clearLow i.x 0 = clearLow j.x 0 := congrArg (fun k => k.base.x) h
  have hy : clearLow i.y 0 = clearLow j.y 0 := congrArg (fun k => k.base.y) h
  have hz : clearLow i.z 0 = clearLow j.z 0 := congrArg (fun k => k.base.z) h
  have hcl : ∀ x : Nat, clearLow x 0 = x := by
    intro x
    unfold clearLow
    norm_num
  rw [hcl, hcl] at hx hy hz
  cases i
  cases j
  simp only [Index.mk.injEq]
  exact ⟨hx, hy, hz⟩

theorem index_eq_of_leaf_match {i j : Index} (hb : i.branchAt 1 = j.branchAt 1)
    (hbit : i.bit 0 = j.bit 0) : i = j :=
  branchAt_zero_inj ((branchAt_pred_eq_iff i j 1 (by omega) (by omega)).mpr ⟨hb, hbit⟩)

-- ## The expansion step (split a terminal into a uniform branch) preserves every lookup

theorem expand_step_get (t : OctreeBitmap) (idx : Index) (other : RawNode)
    (hother : other ≠ RawNode.Branch) (ch : Nat) (hch : 1 ≤ ch) (hchH : ch + 1 ≤ t.height)
    (hle : t.height ≤ 31) {br : Branch}
    (hfind : Store.find? t.branches (idx.branchAt (ch + 1)) = some br)
    (hchild : br.childAt (idx.bit ch) = other) (idx2 : Index) :
    OctreeBitmap.getLoop
      ⟨Store.insert (Store.modify t.branches (idx.branchAt (ch + 1))
        (fun p => p.setChild (idx.bit ch) RawNode.Branch))
        (idx.branchAt ch) (Branch.uniform other), t.height⟩ idx2 t.height =
      t.getLoop idx2 t.height := by
  set t' : OctreeBitmap :=
    ⟨Store.insert (Store.modify t.branches (idx.branchAt (ch + 1))
      (fun p => p.setChild (idx.bit ch) RawNode.Branch))
      (idx.branchAt ch) (Branch.uniform other), t.height⟩ with ht'
  have hfind' : ∀ k : BranchIndex,
      Store.find? t'.branches k =
        if k = idx.branchAt ch then some (Branch.uniform other)
        else if k = idx.branchAt (ch + 1) then
          (Store.find? t.branches (idx.branchAt (ch + 1))).map
            (fun p => p.setChild (idx.bit ch) RawNode.Branch)
        else Store.find? t.branches k := by
    intro k
    show Store.find? (Store.insert (Store.modify t.branches (idx.branchAt (ch + 1))
      (fun p => p.setChild (idx.bit ch) RawNode.Branch))
      (idx.branchAt ch) (Branch.uniform other)) k = _
    rw [Store.find?_insert, Store.find?_modify]
  have hprobe_ne : ∀ j, j ≠ ch → j ≠ ch + 1 → t'.probe idx2 j = t.probe idx2 j := by
    intro j hj1 hj2
    unfold OctreeBitmap.probe
    rw [hfind' (idx2.branchAt j), if_neg (branchAt_ne_height hj1),
      if_neg (branchAt_ne_height hj2)]
  by_cases hmatch : idx2.branchAt ch = idx.branchAt ch
  · have hsplit := (branchAt_pred_eq_iff idx2 idx (ch + 1) (by omega) (by omega)).mp
      (by rw [Nat.add_sub_cancel]; exact hmatch)
    rw [Nat.add_sub_cancel] at hsplit
    obtain ⟨hP, hbit⟩ := hsplit
    obtain ⟨v, rfl⟩ := exists_ofBool other hother
    have hbase : t'.getLoop idx2 (ch + 1) = t.getLoop idx2 (ch + 1) := by
      have hpr' : t'.probe idx2 (ch + 1) = some RawNode.Branch := by
        unfold OctreeBitmap.probe
        rw [hfind' (idx2.branchAt (ch + 1)), if_neg (branchAt_ne_height (by omega)),
          if_pos hP, hfind]
        simp only [Option.map_some', Nat.add_sub_cancel, hbit]
        rw [Branch.childAt_setChild_self]
      have hprc' : t'.probe idx2 ch = some (RawNode.ofBool v) := by
        unfold OctreeBitmap.probe
        rw [hfind' (idx2.branchAt ch), if_pos hmatch]
        simp only [Option.map_some']
        rw [Branch.childAt_uniform]
      have hL : t'.getLoop idx2 (ch + 1) = some v := by
        rw [getLoop_succ, hpr', if_neg (by omega)]
        exact getLoop_terminal t' idx2 ch hch v hprc'
      have hR : t.getLoop idx2 (ch + 1) = some v := by
        apply getLoop_terminal t idx2 (ch + 1) (by omega) v
        rw [probe_succ, hP, hfind]
        simp only [Option.map_some', Option.some.injEq, hbit]
        exact hchild
      rw [hL, hR]
    exact getLoop_congr_from t' t idx2 (ch + 1) (by omega) t.height hchH
      (fun j h1 h2 => hprobe_ne j (by omega) (by omega)) hbase
  · have hall : ∀ j, 1 ≤ j → j ≤ t.height → t'.probe idx2 j = t.probe idx2 j := by
      intro j h1 h2
      by_cases hjc : j = ch
      · subst hjc
        unfold OctreeBitmap.probe
        rw [hfind' (idx2.branchAt j), if_neg hmatch, if_neg (branchAt_ne_height (by omega))]
      · by_cases hjc1 : j = ch + 1
        · subst hjc1
          unfold OctreeBitmap.probe
          rw [hfind' (idx2.branchAt (ch + 1)), if_neg (branchAt_ne_height (by omega))]
          by_cases hP : idx2.branchAt (ch + 1) = idx.branchAt (ch + 1)
          · rw [if_pos hP, hP, hfind]
            have hbitne : idx2.bit ch ≠ idx.bit ch := by
              intro hbit
              apply hmatch
              have hres := (branchAt_pred_eq_iff idx2 idx (ch + 1) (by omega) (by omega)).mpr
                (by rw [Nat.add_sub_cancel]; exact ⟨hP, hbit⟩)
              rw [Nat.add_sub_cancel] at hres
              exact hres
            simp only [Option.map_some', Nat.add_sub_cancel]
            rw [Branch.childAt_setChild_ne _ _ _ _ hbitne]
          · rw [if_neg hP]
        · exact hprobe_ne j hjc hjc1
    have hbase : t'.getLoop idx2 1 = t.getLoop idx2 1 := by
      rw [getLoop_one, getLoop_one, hall 1 (by omega) (by omega)]
    exact getLoop_congr_from t' t idx2 1 (by omega) t.height (by omega)
      (fun j h1 h2 => hall j (by omega) h2) hbase

theorem Branch.uniform_inj {s s' : RawNode} (h : Branch.uniform s = Branch.uniform s') :
    s = s' :=
  congrArg (fun br => br.childAt (0, 0, 0)) h

-- ## The leaf write step

theorem leaf_step_get (t : OctreeBitmap) (idx : Index) (desired : RawNode)
    (hpos : 1 ≤ t.height) (hle : t.height ≤ 31) (idx2 : Index) (hne : idx2 ≠ idx) :
    OctreeBitmap.getLoop ⟨Store.modify t.branches (idx.branchAt 1)
      (fun p => p.setChild (idx.bit 0) desired), t.height⟩ idx2 t.height =
      t.getLoop idx2 t.height := by
  set t1 : OctreeBitmap := ⟨Store.modify t.branches (idx.branchAt 1)
    (fun p => p.setChild (idx.bit 0) desired), t.height⟩ with ht1
  have hfind' : ∀ k : BranchIndex,
      Store.find? t1.branches k =
        if k = idx.branchAt 1 then
          (Store.find? t.branches (idx.branchAt 1)).map
            (fun p => p.setChild (idx.bit 0) desired)
        else Store.find? t.branches k := by
    intro k
    show Store.find? (Store.modify t.branches (idx.branchAt 1)
      (fun p => p.setChild (idx.bit 0) desired)) k = _
    rw [Store.find?_modify]
  have hall : ∀ j, 1 ≤ j → j ≤ t.height → t1.probe idx2 j = t.probe idx2 j := by
    intro j h1 h2
    by_cases hj1 : j = 1
    · subst hj1
      unfold OctreeBitmap.probe
      rw [hfind' (idx2.branchAt 1)]
      by_cases hK : idx2.branchAt 1 = idx.branchAt 1
      · rw [if_pos hK]
        have hbitne : idx2.bit 0 ≠ idx.bit 0 :=
          fun hb => hne (index_eq_of_leaf_match hK hb)
        cases hq : Store.find? t.branches (idx.branchAt 1) with
        | none => rw [hK, hq]; rfl
        | some q =>
          rw [hK, hq]
          simp only [Option.map_some', Option.some.injEq]
          exact Branch.childAt_setChild_ne _ _ _ _ hbitne
      · rw [if_neg hK]
    · unfold OctreeBitmap.probe
      rw [hfind' (idx2.branchAt j), if_neg (branchAt_ne_height hj1)]
  have hbase : t1.getLoop idx2 1 = t.getLoop idx2 1 := by
    rw [getLoop_one, getLoop_one, hall 1 (by omega) (by omega)]
  exact getLoop_congr_from t1 t idx2 1 (by omega) t.height (by omega)
    (fun j h1 h2 => hall j (by omega) h2) hbase

theorem leaf_step_get_self (t : OctreeBitmap) (idx : Index) (v : Bool)
    (hpos : 1 ≤ t.height) {br : Branch}
    (hfind : Store.find? t.branches (idx.branchAt 1) = some br)
    (habove : ∀ j, 1 < j → j ≤ t.height → t.probe idx j = some RawNode.Branch) :
    OctreeBitmap.getLoop ⟨Store.modify t.branches (idx.branchAt 1)
      (fun p => p.setChild (idx.bit 0) (RawNode.ofBool v)), t.height⟩ idx t.height = some v := by
  set t1 : OctreeBitmap := ⟨Store.modify t.branches (idx.branchAt 1)
    (fun p => p.setChild (idx.bit 0) (RawNode.ofBool v)), t.height⟩ with ht1
  have habove1 : ∀ j, 1 < j → j ≤ t.height → t1.probe idx j = some RawNode.Branch := by
    intro j h1 h2
    have : t1.probe idx j = t.probe idx j := by
      unfold OctreeBitmap.probe
      show (Store.find? (Store.modify t.branches (idx.branchAt 1)
        (fun p => p.setChild (idx.bit 0) (RawNode.ofBool v))) (idx.branchAt j)).map _ = _
      rw [Store.find?_modify, if_neg (branchAt_ne_height (by omega))]
    rw [this]
    exact habove j h1 h2
  rw [getLoop_of_branch_above t1 idx 1 (by omega) t.height hpos habove1]
  apply getLoop_terminal t1 idx 1 (by omega) v
  unfold OctreeBitmap.probe
  show (Store.find? (Store.modify t.branches (idx.branchAt 1)
    (fun p => p.setChild (idx.bit 0) (RawNode.ofBool v))) (idx.branchAt 1)).map _ = _
  rw [Store.find?_modify, if_pos rfl, hfind]
  simp only [Option.map_some', Option.some.injEq]
  exact Branch.childAt_setChild_self _ _ _

theorem leaf_step_WFcore (t : OctreeBitmap) (idx : Index) (v : Bool) (hcore : WFcore t) :
    WFcore ⟨Store.modify t.branches (idx.branchAt 1)
      (fun p => p.setChild (idx.bit 0) (RawNode.ofBool v)), t.height⟩ := by
  have hsome : ∀ k : BranchIndex, (Store.find? t.branches k).isSome →
      (Store.find? (Store.modify t.branches (idx.branchAt 1)
        (fun p => p.setChild (idx.bit 0) (RawNode.ofBool v))) k).isSome := by
    intro k hk
    rw [Store.find?_modify]
    by_cases hk1 : k = idx.branchAt 1
    · rw [if_pos hk1]
      rw [hk1] at hk
      cases hq : Store.find? t.branches (idx.branchAt 1) with
      | none => rw [hq] at hk; cases hk
      | some q => rfl
    · rw [if_neg hk1]
      exact hk
  refine ⟨hcore.hpos, hcore.hle, ?_, ?_, ?_, ?_⟩
  · show (List.map Prod.fst (Store.modify t.branches (idx.branchAt 1)
      (fun p => p.setChild (idx.bit 0) (RawNode.ofBool v)))).Nodup
    exact Store.nodup_modify _ _ hcore.nodup
  · exact hsome _ hcore.root_mem
  · show ∀ kv ∈ Store.modify t.branches (idx.branchAt 1)
      (fun p => p.setChild (idx.bit 0) (RawNode.ofBool v)), keyOK t.height kv.1
    intro kv hmem
    obtain ⟨kv', hkv't, hkv'eq⟩ := Store.mem_modify.mp hmem
    by_cases hPk : kv'.1 = idx.branchAt 1
    · rw [if_pos hPk] at hkv'eq
      have hok := hcore.keys_ok kv' hkv't
      rw [hPk] at hok
      rw [hkv'eq]
      exact hok
    · rw [if_neg hPk] at hkv'eq
      rw [hkv'eq]
      exact hcore.keys_ok kv' hkv't
  · show ∀ kv ∈ Store.modify t.branches (idx.branchAt 1)
      (fun p => p.setChild (idx.bit 0) (RawNode.ofBool v)),
      ∀ b : Fin 2 × Fin 2 × Fin 2, kv.2.childAt b = RawNode.Branch →
        2 ≤ kv.1.height ∧
        (Store.find? (Store.modify t.branches (idx.branchAt 1)
          (fun p => p.setChild (idx.bit 0) (RawNode.ofBool v))) (childKey kv.1 b)).isSome
    intro kv hmem b hb
    obtain ⟨kv', hkv't, hkv'eq⟩ := Store.mem_modify.mp hmem
    by_cases hPk : kv'.1 = idx.branchAt 1
    · rw [if_pos hPk] at hkv'eq
      by_cases hbb : b = idx.bit 0
      · rw [hkv'eq, hbb] at hb
        simp only [Branch.childAt_setChild_self] at hb
        exact absurd hb (RawNode.ofBool_ne_Branch v)
      · rw [hkv'eq] at hb
        simp only at hb
        rw [Branch.childAt_setChild_ne _ _ _ _ hbb] at hb
        obtain ⟨h2, hsome'⟩ := hcore.child_link kv' hkv't b hb
        rw [hPk] at h2
        have : (2 : Nat) ≤ 1 := h2
        omega
    · rw [if_neg hPk] at hkv'eq
      rw [hkv'eq] at hb ⊢
      obtain ⟨h2, hsome'⟩ := hcore.child_link kv' hkv't b hb
      exact ⟨h2, hsome _ hsome'⟩

theorem leaf_step_canon (t : OctreeBitmap) (idx : Index) (d : RawNode)
    (hcanon : CanonExceptNe t (idx.branchAt 1) d) (f : Branch → Branch) :
    CanonExceptAt ⟨Store.modify t.branches (idx.branchAt 1) f, t.height⟩
      (idx.branchAt 1) := by
  intro kv hmem hroot hne
  obtain ⟨kv', hkv't, hkv'eq⟩ := Store.mem_modify.mp hmem
  by_cases hPk : kv'.1 = idx.branchAt 1
  · rw [if_pos hPk] at hkv'eq
    exact absurd (by rw [hkv'eq]) hne
  · rw [if_neg hPk] at hkv'eq
    intro hut
    obtain ⟨s, hsB, hsu⟩ := hut
    obtain ⟨hke, -⟩ := hcanon kv' hkv't (by rw [← hkv'eq]; exact hroot) s hsB
      (by rw [← hkv'eq]; exact hsu)
    exact hPk hke

-- ## The expansion step preserves the structural invariant

theorem expand_step_WFcore (t : OctreeBitmap) (idx : Index) (other : RawNode)
    (hother : other ≠ RawNode.Branch) (ch : Nat) (hch : 1 ≤ ch) (hchH : ch + 1 ≤ t.height)
    (hcore : WFcore t) {br : Branch}
    (hfind : Store.find? t.branches (idx.branchAt (ch + 1)) = some br) :
    WFcore ⟨Store.insert (Store.modify t.branches (idx.branchAt (ch + 1))
      (fun p => p.setChild (idx.bit ch) RawNode.Branch))
      (idx.branchAt ch) (Branch.uniform other), t.height⟩ := by
  have hle := hcore.hle
  have hf' : ∀ k : BranchIndex,
      Store.find? (Store.insert (Store.modify t.branches (idx.branchAt (ch + 1))
        (fun p => p.setChild (idx.bit ch) RawNode.Branch))
        (idx.branchAt ch) (Branch.uniform other)) k =
        if k = idx.branchAt ch then some (Branch.uniform other)
        else if k = idx.branchAt (ch + 1) then
          (Store.find? t.branches (idx.branchAt (ch + 1))).map
            (fun p => p.setChild (idx.bit ch) RawNode.Branch)
        else Store.find? t.branches k := by
    intro k
    rw [Store.find?_insert, Store.find?_modify]
  have hsome' : ∀ k : BranchIndex, (Store.find? t.branches k).isSome →
      (Store.find? (Store.insert (Store.modify t.branches (idx.branchAt (ch + 1))
        (fun p => p.setChild (idx.bit ch) RawNode.Branch))
        (idx.branchAt ch) (Branch.uniform other)) k).isSome := by
    intro k hk
    rw [hf' k]
    by_cases hk1 : k = idx.branchAt ch
    · rw [if_pos hk1]
      rfl
    · rw [if_neg hk1]
      by_cases hk2 : k = idx.branchAt (ch + 1)
      · rw [if_pos hk2, hk2] at *
        rw [hfind]
        rfl
      · rw [if_neg hk2]
        exact hk
  have hsomeK : (Store.find? (Store.insert (Store.modify t.branches (idx.branchAt (ch + 1))
      (fun p => p.setChild (idx.bit ch) RawNode.Branch))
      (idx.branchAt ch) (Branch.uniform other)) (idx.branchAt ch)).isSome := by
    rw [hf' _, if_pos rfl]
    rfl
  refine ⟨hcore.hpos, hle, ?_, ?_, ?_, ?_⟩
  · show (List.map Prod.fst (Store.insert (Store.modify t.branches (idx.branchAt (ch + 1))
      (fun p => p.setChild (idx.bit ch) RawNode.Branch))
      (idx.branchAt ch) (Branch.uniform other))).Nodup
    exact Store.nodup_insert _ _ (Store.nodup_modify _ _ hcore.nodup)
  · exact hsome' _ hcore.root_mem
  · show ∀ kv ∈ Store.insert (Store.modify t.branches (idx.branchAt (ch + 1))
      (fun p => p.setChild (idx.bit ch) RawNode.Branch))
      (idx.branchAt ch) (Branch.uniform other), keyOK t.height kv.1
    intro kv hmem
    rcases Store.mem_insert.mp hmem with he | ⟨hm, hne⟩
    · rw [he]
      show keyOK t.height (idx.branchAt ch)
      unfold keyOK
      rw [branchAt_height]
      refine ⟨by omega, by omega, fun heq => absurd heq (by omega), ?_, ?_, ?_⟩ <;>
        exact clearLow_align _ _ (by omega)
    · obtain ⟨kv', hkv't, hkv'eq⟩ := Store.mem_modify.mp hm
      by_cases hPk : kv'.1 = idx.branchAt (ch + 1)
      · rw [if_pos hPk] at hkv'eq
        have hok := hcore.keys_ok kv' hkv't
        rw [hPk] at hok
        rw [hkv'eq]
        exact hok
      · rw [if_neg hPk] at hkv'eq
        rw [hkv'eq]
        exact hcore.keys_ok kv' hkv't
  · show ∀ kv ∈ Store.insert (Store.modify t.branches (idx.branchAt (ch + 1))
      (fun p => p.setChild (idx.bit ch) RawNode.Branch))
      (idx.branchAt ch) (Branch.uniform other),
      ∀ b : Fin 2 × Fin 2 × Fin 2, kv.2.childAt b = RawNode.Branch →
        2 ≤ kv.1.height ∧
        (Store.find? (Store.insert (Store.modify t.branches (idx.branchAt (ch + 1))
          (fun p => p.setChild (idx.bit ch) RawNode.Branch))
          (idx.branchAt ch) (Branch.uniform other)) (childKey kv.1 b)).isSome
    intro kv hmem b hb
    rcases Store.mem_insert.mp hmem with he | ⟨hm, hne⟩
    · rw [he] at hb
      simp only [Branch.childAt_uniform] at hb
      exact absurd hb hother
    · obtain ⟨kv', hkv't, hkv'eq⟩ := Store.mem_modify.mp hm
      by_cases hPk : kv'.1 = idx.branchAt (ch + 1)
      · rw [if_pos hPk] at hkv'eq
        by_cases hbb : b = idx.bit ch
        · subst hbb
          rw [hkv'eq]
          refine ⟨by rw [branchAt_height]; omega, ?_⟩
          have hck : childKey (idx.branchAt (ch + 1)) (idx.bit ch) = idx.branchAt ch := by
            have := childKey_branchAt idx (ch + 1) (by omega) (by omega)
            rw [Nat.add_sub_cancel] at this
            exact this
          show (Store.find? _ (childKey (idx.branchAt (ch + 1), _).1 (idx.bit ch))).isSome
          rw [show (childKey ((idx.branchAt (ch + 1), br.setChild (idx.bit ch)
            RawNode.Branch)).1 (idx.bit ch)) = idx.branchAt ch from hck]
          exact hsomeK
        · rw [hkv'eq] at hb
          simp only at hb
          rw [Branch.childAt_setChild_ne _ _ _ _ hbb] at hb
          obtain ⟨h2, hsome2⟩ := hcore.child_link kv' hkv't b hb
          constructor
          · rw [hkv'eq]
            rw [hPk] at h2
            exact h2
          · have hckk : childKey kv.1 b = childKey kv'.1 b := by rw [hkv'eq, hPk]
            rw [hckk]
            exact hsome' _ hsome2
      · rw [if_neg hPk] at hkv'eq
        rw [hkv'eq] at hb ⊢
        obtain ⟨h2, hsome2⟩ := hcore.child_link kv' hkv't b hb
        exact ⟨h2, hsome' _ hsome2⟩

theorem expand_step_canon (t : OctreeBitmap) (idx : Index) (other d : RawNode)
    (hd : other ≠ d) (ch : Nat)
    (hcanon : CanonExceptNe t (idx.branchAt (ch + 1)) d) :
    CanonExceptNe ⟨Store.insert (Store.modify t.branches (idx.branchAt (ch + 1))
      (fun p => p.setChild (idx.bit ch) RawNode.Branch))
      (idx.branchAt ch) (Branch.uniform other), t.height⟩ (idx.branchAt ch) d := by
  intro kv hmem hroot s hsB hsu
  rcases Store.mem_insert.mp hmem with he | ⟨hm, hne⟩
  · rw [he] at hsu ⊢
    simp only at hsu ⊢
    have : other = s := Branch.uniform_inj hsu
    exact ⟨trivial, by rw [← this]; exact hd⟩
  · obtain ⟨kv', hkv't, hkv'eq⟩ := Store.mem_modify.mp hm
    by_cases hPk : kv'.1 = idx.branchAt (ch + 1)
    · rw [if_pos hPk] at hkv'eq
      exfalso
      rw [hkv'eq] at hsu
      simp only at hsu
      have : (kv'.2.setChild (idx.bit ch) RawNode.Branch).childAt (idx.bit ch) = s :=
        Branch.childAt_of_eq_uniform hsu _
      rw [Branch.childAt_setChild_self] at this
      exact hsB this.symm
    · rw [if_neg hPk] at hkv'eq
      exfalso
      obtain ⟨hke, -⟩ := hcanon kv' hkv't (by rw [← hkv'eq]; exact hroot) s hsB
        (by rw [← hkv'eq]; exact hsu)
      exact hPk hke

-- ## Unfolding equations for the write loop

theorem setLoop_succ (idx : Index) (desired : RawNode) (ch : Nat) (t : OctreeBitmap) :
    OctreeBitmap.setLoop idx desired (ch + 1) t =
      match Store.find? t.branches (idx.branchAt (ch + 1)) with
      | none => none
      | some br =>
        match br.childAt (idx.bit ch) with
        | RawNode.Branch => if ch = 0 then none else OctreeBitmap.setLoop idx desired ch t
        | other =>
          if desired = other then some t
          else if ch = 0 then
            OctreeBitmap.compress
              ⟨Store.modify t.branches (idx.branchAt 1)
                (fun p => p.setChild (idx.bit 0) desired), t.height⟩ idx desired
          else
            OctreeBitmap.setLoop idx desired ch
              ⟨Store.insert (Store.modify t.branches (idx.branchAt (ch + 1))
                (fun p => p.setChild (idx.bit ch) RawNode.Branch))
                (idx.branchAt ch) (Branch.uniform other), t.height⟩ := rfl

theorem setLoop_found_branch (idx : Index) (desired : RawNode) (ch : Nat) (t : OctreeBitmap)
    {br : Branch} (hfind : Store.find? t.branches (idx.branchAt (ch + 1)) = some br)
    (hc : br.childAt (idx.bit ch) = RawNode.Branch) :
    OctreeBitmap.setLoop idx desired (ch + 1) t =
      if ch = 0 then none else OctreeBitmap.setLoop idx desired ch t := by
  rw [setLoop_succ, hfind]
  simp only []
  rw [hc]

theorem setLoop_found_terminal (idx : Index) (desired : RawNode) (ch : Nat) (t : OctreeBitmap)
    {br : Branch} {other : RawNode}
    (hfind : Store.find? t.branches (idx.branchAt (ch + 1)) = some br)
    (hc : br.childAt (idx.bit ch) = other) (hother : other ≠ RawNode.Branch) :
    OctreeBitmap.setLoop idx desired (ch + 1) t =
      if desired = other then some t
      else if ch = 0 then
        OctreeBitmap.compress
          ⟨Store.modify t.branches (idx.branchAt 1)
            (fun p => p.setChild (idx.bit 0) desired), t.height⟩ idx desired
      else
        OctreeBitmap.setLoop idx desired ch
          ⟨Store.insert (Store.modify t.branches (idx.branchAt (ch + 1))
            (fun p => p.setChild (idx.bit ch) RawNode.Branch))
            (idx.branchAt ch) (Branch.uniform other), t.height⟩ := by
  rw [setLoop_succ, hfind]
  simp only []
  rw [hc]
  cases other
  · rfl
  · rfl
  · exact absurd rfl hother

-- ## The write loop: terminal-child case

theorem setLoop_spec_terminal (idx : Index) (v : Bool) (ch : Nat) (t : OctreeBitmap)
    (other : RawNode) (hother : other ≠ RawNode.Branch)
    (hle' : ch + 1 ≤ t.height) (hcore : WFcore t) (hinR : t.inRange idx)
    {br : Branch} (hfind' : Store.find? t.branches (idx.branchAt (ch + 1)) = some br)
    (hc : br.childAt (idx.bit ch) = other)
    (habove : ∀ j, ch + 1 < j → j ≤ t.height → t.probe idx j = some RawNode.Branch)
    (hcanon : CanonExceptNe t (idx.branchAt (ch + 1)) (RawNode.ofBool v))
    (IH : ∀ t0 : OctreeBitmap, 1 ≤ ch → ch ≤ t0.height → WFcore t0 → t0.inRange idx →
      (Store.find? t0.branches (idx.branchAt ch)).isSome →
      (∀ j, ch < j → j ≤ t0.height → t0.probe idx j = some RawNode.Branch) →
      CanonExceptNe t0 (idx.branchAt ch) (RawNode.ofBool v) →
      ∃ t', OctreeBitmap.setLoop idx (RawNode.ofBool v) ch t0 = some t' ∧
        t'.height = t0.height ∧ WFcore t' ∧ Canonical t' ∧
        t'.getLoop idx t0.height = some v ∧
        (∀ idx2, idx2 ≠ idx → t'.getLoop idx2 t0.height = t0.getLoop idx2 t0.height)) :
    ∃ t', (if RawNode.ofBool v = other then some t
      else if ch = 0 then
        OctreeBitmap.compress
          ⟨Store.modify t.branches (idx.branchAt 1)
            (fun p => p.setChild (idx.bit 0) (RawNode.ofBool v)), t.height⟩ idx
          (RawNode.ofBool v)
      else
        OctreeBitmap.setLoop idx (RawNode.ofBool v) ch
          ⟨Store.insert (Store.modify t.branches (idx.branchAt (ch + 1))
            (fun p => p.setChild (idx.bit ch) RawNode.Branch))
            (idx.branchAt ch) (Branch.uniform other), t.height⟩) = some t' ∧
      t'.height = t.height ∧ WFcore t' ∧ Canonical t' ∧ t'.getLoop idx t.height = some v ∧
      (∀ idx2, idx2 ≠ idx → t'.getLoop idx2 t.height = t.getLoop idx2 t.height) := by
  have hle := hcore.hle
  by_cases hdes : RawNode.ofBool v = other
  · rw [if_pos hdes]
    refine ⟨t, rfl, rfl, hcore, ?_, ?_, fun idx2 _ => rfl⟩
    · intro kv hmem hroot hut
      obtain ⟨s, hsB, hsu⟩ := hut
      obtain ⟨hke, hsd⟩ := hcanon kv hmem hroot s hsB hsu
      have hkv2 : kv.2 = br := by
        have hfm := Store.find?_eq_of_mem hcore.nodup
          (show (kv.1, kv.2) ∈ t.branches from hmem)
        rw [hke, hfind'] at hfm
        exact (Option.some.inj hfm).symm
      apply hsd
      rw [hkv2] at hsu
      have : s = other := by
        rw [← hc, Branch.childAt_of_eq_uniform hsu]
      rw [this, ← hdes]
    · rw [getLoop_of_branch_above t idx (ch + 1) (by omega) t.height hle' habove]
      apply getLoop_terminal t idx (ch + 1) (by omega) v
      rw [probe_succ, hfind']
      simp only [Option.map_some', Option.some.injEq, Nat.add_sub_cancel]
      rw [hc, ← hdes]
  · rw [if_neg hdes]
    by_cases hch0 : ch = 0
    · subst hch0
      rw [if_pos rfl]
      obtain ⟨t', hrun, hh, hcoreT, hcanonT, hgetT⟩ :=
        compress_spec
          ⟨Store.modify t.branches (idx.branchAt 1)
            (fun p => p.setChild (idx.bit 0) (RawNode.ofBool v)), t.height⟩
          idx (RawNode.ofBool v) (RawNode.ofBool_ne_Branch v)
          (leaf_step_WFcore t idx v hcore) hinR
          ⟨br.setChild (idx.bit 0) (RawNode.ofBool v),
            by show Store.find? (Store.modify t.branches (idx.branchAt 1)
                (fun p => p.setChild (idx.bit 0) (RawNode.ofBool v))) (idx.branchAt 1) = _
               rw [Store.find?_modify, if_pos rfl, hfind']
               rfl,
            Branch.childAt_setChild_self _ _ _⟩
          (by
            intro j hj1 hj2
            have hpr : OctreeBitmap.probe ⟨Store.modify t.branches (idx.branchAt 1)
                (fun p => p.setChild (idx.bit 0) (RawNode.ofBool v)), t.height⟩ idx j =
                t.probe idx j := by
              unfold OctreeBitmap.probe
              show (Store.find? (Store.modify t.branches (idx.branchAt 1)
                (fun p => p.setChild (idx.bit 0) (RawNode.ofBool v)))
                (idx.branchAt j)).map _ = _
              rw [Store.find?_modify, if_neg (branchAt_ne_height (by omega))]
            rw [hpr]
            exact habove j (by omega) hj2)
          (leaf_step_canon t idx (RawNode.ofBool v) hcanon _)
      refine ⟨t', hrun, hh, hcoreT, hcanonT, ?_, ?_⟩
      · rw [hgetT idx]
        exact leaf_step_get_self t idx v hcore.hpos hfind' habove
      · intro idx2 hne
        rw [hgetT idx2]
        exact leaf_step_get t idx (RawNode.ofBool v) hcore.hpos hle idx2 hne
    · rw [if_neg hch0]
      obtain ⟨t'', hrun, hh, hcoreT, hcanonT, hgetid, hget2⟩ :=
        IH ⟨Store.insert (Store.modify t.branches (idx.branchAt (ch + 1))
            (fun p => p.setChild (idx.bit ch) RawNode.Branch))
            (idx.branchAt ch) (Branch.uniform other), t.height⟩
          (by omega) (show ch ≤ t.height from by omega)
          (expand_step_WFcore t idx other hother ch (by omega) hle' hcore hfind')
          hinR
          (by
            show (Store.find? (Store.insert (Store.modify t.branches (idx.branchAt (ch + 1))
              (fun p => p.setChild (idx.bit ch) RawNode.Branch))
              (idx.branchAt ch) (Branch.uniform other)) (idx.branchAt ch)).isSome
            rw [Store.find?_insert, if_pos rfl]
            rfl)
          (by
            intro j hj1 hj2
            show (Store.find? (Store.insert (Store.modify t.branches (idx.branchAt (ch + 1))
              (fun p => p.setChild (idx.bit ch) RawNode.Branch))
              (idx.branchAt ch) (Branch.uniform other))
              (idx.branchAt j)).map (fun b2 => b2.childAt (idx.bit (j - 1))) =
              some RawNode.Branch
            by_cases hj : j = ch + 1
            · subst hj
              rw [Store.find?_insert, if_neg (branchAt_ne_height (by omega)),
                Store.find?_modify, if_pos rfl, hfind']
              simp only [Option.map_some', Option.some.injEq, Nat.add_sub_cancel]
              exact Branch.childAt_setChild_self _ _ _
            · rw [Store.find?_insert, if_neg (branchAt_ne_height (by omega)),
                Store.find?_modify, if_neg (branchAt_ne_height (by omega))]
              exact habove j (by omega) hj2)
          (expand_step_canon t idx other (RawNode.ofBool v)
            (fun he => hdes he.symm) ch hcanon)
      refine ⟨t'', hrun, hh, hcoreT, hcanonT, hgetid, ?_⟩
      intro idx2 hne
      rw [hget2 idx2 hne]
      exact expand_step_get t idx other hother ch (by omega) hle' hle hfind' hc idx2

-- ## Full specification of the write loop and of set

theorem setLoop_spec (idx : Index) (v : Bool) :
    ∀ (ch : Nat) (t : OctreeBitmap), 1 ≤ ch → ch ≤ t.height →
      WFcore t → t.inRange idx →
      (Store.find? t.branches (idx.branchAt ch)).isSome →
      (∀ j, ch < j → j ≤ t.height → t.probe idx j = some RawNode.Branch) →
      CanonExceptNe t (idx.branchAt ch) (RawNode.ofBool v) →
      ∃ t', OctreeBitmap.setLoop idx (RawNode.ofBool v) ch t = some t' ∧
        t'.height = t.height ∧ WFcore t' ∧ Canonical t' ∧
        t'.getLoop idx t.height = some v ∧
        (∀ idx2, idx2 ≠ idx → t'.getLoop idx2 t.height = t.getLoop idx2 t.height) := by
  intro ch
  induction ch with
  | zero => intro t h1 _ _ _ _ _ _; omega
  | succ ch ih =>
    intro t h1 hle' hcore hinR hfind habove hcanon
    have hle := hcore.hle
    obtain ⟨br, hfind'⟩ := Option.isSome_iff_exists.mp hfind
    cases hc : br.childAt (idx.bit ch) with
    | Branch =>
      rw [setLoop_found_branch idx _ ch t hfind' hc]
      have hmem := Store.find?_some_mem hfind'
      obtain ⟨h2, hsome⟩ := hcore.child_link _ hmem _ hc
      have h2' : 2 ≤ ch + 1 := h2
      rw [if_neg (show ¬ ch = 0 from by omega)]
      have hck : childKey (idx.branchAt (ch + 1)) (idx.bit ch) = idx.branchAt ch := by
        have h3 := childKey_branchAt idx (ch + 1) (by omega) (by omega)
        rw [Nat.add_sub_cancel] at h3
        exact h3
      have hsome' : (Store.find? t.branches
          (childKey (idx.branchAt (ch + 1)) (idx.bit ch))).isSome := hsome
      rw [hck] at hsome'
      have hpr : t.probe idx (ch + 1) = some RawNode.Branch := by
        rw [probe_succ, hfind']
        simp only [Option.map_some', Option.some.injEq, Nat.add_sub_cancel]
        exact hc
      have hcanon' : CanonExceptNe t (idx.branchAt ch) (RawNode.ofBool v) := by
        intro kv hmemkv hroot s hsB hsu
        exfalso
        obtain ⟨hke, hsd⟩ := hcanon kv hmemkv hroot s hsB hsu
        have hkv2 : kv.2 = br := by
          have hfm := Store.find?_eq_of_mem hcore.nodup
            (show (kv.1, kv.2) ∈ t.branches from hmemkv)
          rw [hke, hfind'] at hfm
          exact (Option.some.inj hfm).symm
        rw [hkv2] at hsu
        have : s = RawNode.Branch := by rw [← hc, Branch.childAt_of_eq_uniform hsu]
        exact hsB this
      have habove' : ∀ j, ch < j → j ≤ t.height → t.probe idx j = some RawNode.Branch := by
        intro j hj1 hj2
        by_cases hj : j = ch + 1
        · rw [hj]
          exact hpr
        · exact habove j (by omega) hj2
      exact ih t (by omega) (by omega) hcore hinR hsome' habove' hcanon'
    | False =>
      rw [setLoop_found_terminal idx _ ch t hfind' hc (by decide)]
      exact setLoop_spec_terminal idx v ch t RawNode.False (by decide) hle' hcore hinR
        hfind' hc habove hcanon ih
    | True =>
      rw [setLoop_found_terminal idx _ ch t hfind' hc (by decide)]
      exact setLoop_spec_terminal idx v ch t RawNode.True (by decide) hle' hcore hinR
        hfind' hc habove hcanon ih

theorem set_spec (t : OctreeBitmap) (idx : Index) (v : Bool) (hwf : WF t)
    (hinR : t.inRange idx) :
    ∃ t', t.set idx v = some t' ∧ WF t' ∧ t'.height = t.height ∧
      t'.get idx = some v ∧
      (∀ idx2, idx2 ≠ idx → t'.get idx2 = t.get idx2) := by
  obtain ⟨hcore, hcanon⟩ := hwf
  have hroot : idx.branchAt t.height = BranchIndex.root t.height := by
    rw [branchAt_eq_root_iff _ _ hcore.hle]
    exact (inRange_iff t idx hcore.hle).mp hinR
  obtain ⟨t', hrun, hh, hcore', hcanon', hgeti, hget2⟩ :=
    setLoop_spec idx v t.height t hcore.hpos (Nat.le_refl _) hcore hinR
      (by rw [hroot]; exact hcore.root_mem)
      (fun j hj1 hj2 => absurd hj1 (by omega))
      (by
        intro kv hmem hroot' s hsB hsu
        exact absurd ⟨s, hsB, hsu⟩ (hcanon kv hmem hroot'))
  refine ⟨t', hrun, ⟨hcore', hcanon'⟩, hh, ?_, ?_⟩
  · show t'.getLoop idx t'.height = some v
    rw [hh]
    exact hgeti
  · intro idx2 hne
    show t'.getLoop idx2 t'.height = t.getLoop idx2 t.height
    rw [hh]
    exact hget2 idx2 hne

-- ## Height bounds of a fresh tree

theorem bitLen_zero (fuel : Nat) : bitLen fuel 0 = 0 := by
  cases fuel <;> rfl

theorem bitLen_le (k : Nat) : ∀ (fuel n : Nat), n < 2 ^ k → bitLen fuel n ≤ k := by
  induction k with
  | zero =>
    intro fuel n hn
    have : n = 0 := by omega
    rw [this, bitLen_zero]
  | succ k ihk =>
    intro fuel n hn
    cases fuel with
    | zero => exact Nat.zero_le _
    | succ fuel =>
      by_cases hn0 : n = 0
      · rw [hn0, bitLen_zero]
        exact Nat.zero_le _
      · unfold bitLen
        rw [if_neg hn0]
        have hdiv : n / 2 < 2 ^ k := by
          have h2 : (2 : Nat) ^ (k + 1) = 2 * 2 ^ k := by
            rw [Nat.pow_succ]
            ring
          omega
        have := ihk fuel (n / 2) hdiv
        omega

theorem bitLen_pos (fuel n : Nat) (hn : 1 ≤ n) : 1 ≤ bitLen (fuel + 1) n := by
  unfold bitLen
  rw [if_neg (by omega)]
  omega

theorem bitLen_two_pow : ∀ (fuel j : Nat), j < fuel → bitLen fuel (2 ^ j) = j + 1 := by
  intro fuel
  induction fuel with
  | zero => intro j hj; omega
  | succ fuel ih =>
    intro j hj
    unfold bitLen
    rw [if_neg (Nat.pos_pow_of_pos j (show 0 < 2 from by omega)).ne']
    cases j with
    | zero =>
      norm_num
      exact bitLen_zero fuel
    | succ j =>
      have hdiv : (2 : Nat) ^ (j + 1) / 2 = 2 ^ j := by
        rw [Nat.pow_succ, Nat.mul_div_cancel _ (by omega)]
      rw [hdiv, ih j (by omega)]

theorem two_pow_sub_one_shiftRight (b : Nat) (hb : b ≤ 32) :
    ((2 : Nat) ^ 32 - 1) >>> (32 - b) = 2 ^ b - 1 := by
  rw [Nat.shiftRight_eq_div_pow]
  have hpos : 0 < (2 : Nat) ^ (32 - b) := Nat.pos_pow_of_pos _ (by omega)
  have hbpos : 0 < (2 : Nat) ^ b := Nat.pos_pow_of_pos _ (by omega)
  have hmul : (2 : Nat) ^ b * 2 ^ (32 - b) = 2 ^ 32 := by
    rw [← Nat.pow_add]
    congr 1
    omega
  have hsub : ((2 : Nat) ^ b - 1) * 2 ^ (32 - b) = 2 ^ 32 - 2 ^ (32 - b) := by
    rw [Nat.sub_mul, one_mul, hmul]
  apply Nat.div_eq_of_lt_le
  · rw [hsub]
    omega
  · have hs : ((2 : Nat) ^ b - 1 + 1) = 2 ^ b := by omega
    rw [hs, hmul]
    omega

theorem new_height_eq (w : Nat) (hw : 2 ≤ w) (hw30 : w ≤ 2 ^ 30) :
    (OctreeBitmap.new w).height = bitLen 32 (w - 1) + 1 := by
  have hb1 : 1 ≤ bitLen 32 (w - 1) := bitLen_pos 31 (w - 1) (by omega)
  have hb30 : bitLen 32 (w - 1) ≤ 30 := bitLen_le 30 32 (w - 1) (by omega)
  show 32 - leadingZeros32 (nextPowerOfTwo32 w) = bitLen 32 (w - 1) + 1
  unfold nextPowerOfTwo32
  rw [if_neg (by omega)]
  unfold leadingZeros32
  rw [two_pow_sub_one_shiftRight (bitLen 32 (w - 1)) (by omega)]
  have hnp : (2 : Nat) ^ bitLen 32 (w - 1) - 1 + 1 = 2 ^ bitLen 32 (w - 1) := by
    have := Nat.pos_pow_of_pos (bitLen 32 (w - 1)) (show 0 < 2 from by omega)
    omega
  rw [hnp, Nat.mod_eq_of_lt (Nat.pow_lt_pow_right (by omega) (by omega)),
    bitLen_two_pow 32 (bitLen 32 (w - 1)) (by omega)]
  omega

theorem new_height_bounds (w : Nat) (hw : w ≤ 2 ^ 30) :
    1 ≤ (OctreeBitmap.new w).height ∧ (OctreeBitmap.new w).height ≤ 31 := by
  by_cases hw1 : w ≤ 1
  · have : (OctreeBitmap.new w).height = 1 := by
      show 32 - leadingZeros32 (nextPowerOfTwo32 w) = 1
      unfold nextPowerOfTwo32
      rw [if_pos hw1]
      decide
    omega
  · have heq := new_height_eq w (by omega) hw
    have hb1 : 1 ≤ bitLen 32 (w - 1) := bitLen_pos 31 (w - 1) (by omega)
    have hb30 : bitLen 32 (w - 1) ≤ 30 := bitLen_le 30 32 (w - 1) (by omega)
    omega

-- ## Fresh and cleared trees

theorem singleton_WF (H : Nat) (h1 : 1 ≤ H) (h31 : H ≤ 31) :
    WF ⟨Store.insert [] (BranchIndex.root H) (Branch.uniform RawNode.False), H⟩ := by
  constructor
  · constructor
    · exact h1
    · exact h31
    · show ([(BranchIndex.root H, Branch.uniform RawNode.False)].map Prod.fst).Nodup
      simp
    · show (Store.find? [(BranchIndex.root H, Branch.uniform RawNode.False)]
        (BranchIndex.root H)).isSome
      unfold Store.find?
      rw [if_pos rfl]
      rfl
    · intro kv hkv
      have hkv' : kv = (BranchIndex.root H, Branch.uniform RawNode.False) := by
        simpa [Store.insert, Store.erase] using hkv
      subst hkv'
      exact ⟨h1, Nat.le_refl H, fun _ => rfl, Nat.zero_mod _, Nat.zero_mod _, Nat.zero_mod _⟩
    · intro kv hkv b hb
      have hkv' : kv = (BranchIndex.root H, Branch.uniform RawNode.False) := by
        simpa [Store.insert, Store.erase] using hkv
      subst hkv'
      rw [Branch.childAt_uniform] at hb
      simp at hb
  · intro kv hkv hne
    have hkv' : kv = (BranchIndex.root H, Branch.uniform RawNode.False) := by
      simpa [Store.insert, Store.erase] using hkv
    subst hkv'
    exact absurd rfl hne

theorem new_WF (w : Nat) (hw : w ≤ 2 ^ 30) : WF (OctreeBitmap.new w) := by
  obtain ⟨h1, h31⟩ := new_height_bounds w hw
  exact singleton_WF (OctreeBitmap.new w).height h1 h31

theorem clear_WF (t : OctreeBitmap) (h1 : 1 ≤ t.height) (h31 : t.height ≤ 31) :
    WF t.clear :=
  singleton_WF t.height h1 h31

theorem singleton_get (H : Nat) (h1 : 1 ≤ H) (h31 : H ≤ 31) (idx : Index)
    (hx : idx.x < 2 ^ H) (hy : idx.y < 2 ^ H) (hz : idx.z < 2 ^ H) :
    OctreeBitmap.getLoop
      ⟨Store.insert [] (BranchIndex.root H) (Branch.uniform RawNode.False), H⟩ idx H =
      some false := by
  have hroot : idx.branchAt H = BranchIndex.root H :=
    (branchAt_eq_root_iff idx H h31).mpr ⟨hx, hy, hz⟩
  apply getLoop_terminal _ idx H h1 false
  show (Store.find? (Store.insert [] (BranchIndex.root H) (Branch.uniform RawNode.False))
    (idx.branchAt H)).map (fun br => br.childAt (idx.bit (H - 1))) = some (RawNode.ofBool false)
  rw [hroot, Store.find?_insert, if_pos rfl]
  rfl

theorem get_new (w : Nat) (hw : w ≤ 2 ^ 30) (idx : Index)
    (hin : (OctreeBitmap.new w).inRange idx) :
    (OctreeBitmap.new w).get idx = some false := by
  obtain ⟨h1, h31⟩ := new_height_bounds w hw
  have h := (inRange_iff _ idx h31).mp hin
  exact singleton_get (OctreeBitmap.new w).height h1 h31 idx h.1 h.2.1 h.2.2

theorem get_clear (t : OctreeBitmap) (h1 : 1 ≤ t.height) (h31 : t.height ≤ 31) (idx : Index)
    (hin : t.inRange idx) : t.clear.get idx = some false := by
  have h := (inRange_iff t idx h31).mp hin
  exact singleton_get t.height h1 h31 idx h.1 h.2.1 h.2.2

-- ## Out-of-range indices panic before any mutation

theorem find_root_none_of_out (t : OctreeBitmap) (idx : Index) (hcore : WFcore t)
    (hout : ¬ t.inRange idx) :
    Store.find? t.branches (idx.branchAt t.height) = none := by
  apply Store.find?_eq_none
  intro kv hkv he
  have hk := hcore.keys_ok kv hkv
  have hh : kv.1.height = t.height := by rw [he, branchAt_height]
  have hkroot : kv.1 = BranchIndex.root t.height := hk.2.2.1 hh
  have hbr : idx.branchAt t.height = BranchIndex.root t.height := he.symm.trans hkroot
  exact hout ((inRange_iff t idx hcore.hle).mpr
    ((branchAt_eq_root_iff idx t.height hcore.hle).mp hbr))

theorem get_out_of_range (t : OctreeBitmap) (idx : Index) (hcore : WFcore t)
    (hout : ¬ t.inRange idx) : t.get idx = none := by
  obtain ⟨hm, hH⟩ : ∃ hm, t.height = hm + 1 := ⟨t.height - 1, by
    have := hcore.hpos
    omega⟩
  have hfind := find_root_none_of_out t idx hcore hout
  rw [hH] at hfind
  show t.getLoop idx t.height = none
  rw [hH, getLoop_eq, hfind]

theorem set_out_of_range (t : OctreeBitmap) (idx : Index) (v : Bool) (hcore : WFcore t)
    (hout : ¬ t.inRange idx) : t.set idx v = none := by
  obtain ⟨hm, hH⟩ : ∃ hm, t.height = hm + 1 := ⟨t.height - 1, by
    have := hcore.hpos
    omega⟩
  have hfind := find_root_none_of_out t idx hcore hout
  rw [hH] at hfind
  show OctreeBitmap.setLoop idx (RawNode.ofBool v) t.height t = none
  rw [hH, setLoop_succ, hfind]

-- ## Writing an already-stored value is a no-op (early return)

theorem setLoop_noop (idx : Index) (v : Bool) :
    ∀ ch t, OctreeBitmap.getLoop t idx ch = some v →
      OctreeBitmap.setLoop idx (RawNode.ofBool v) ch t = some t := by
  intro ch
  induction ch with
  | zero =>
    intro t h
    rw [show OctreeBitmap.getLoop t idx 0 = none from rfl] at h
    cases h
  | succ ch ih =>
    intro t h
    rw [getLoop_succ] at h
    cases hp : t.probe idx (ch + 1) with
    | none =>
      rw [hp] at h
      simp only [] at h
      cases h
    | some s =>
      obtain ⟨br, hfind, hc⟩ := (probe_eq_some_iff _ _ _ _).mp hp
      rw [Nat.add_sub_cancel] at hc
      rw [hp] at h
      cases s with
      | False =>
        simp only [] at h
        have hv : v = false := (Option.some.inj h).symm
        rw [setLoop_found_terminal idx _ ch t hfind hc (by simp),
          if_pos (show RawNode.ofBool v = RawNode.False by rw [hv]; rfl)]
      | True =>
        simp only [] at h
        have hv : v = true := (Option.some.inj h).symm
        rw [setLoop_found_terminal idx _ ch t hfind hc (by simp),
          if_pos (show RawNode.ofBool v = RawNode.True by rw [hv]; rfl)]
      | Branch =>
        simp only [] at h
        by_cases hch : ch = 0
        · rw [if_pos hch] at h
          cases h
        · rw [if_neg hch] at h
          rw [setLoop_found_branch idx _ ch t hfind hc, if_neg hch]
          exact ih t h

theorem set_noop (t : OctreeBitmap) (idx : Index) (v : Bool)
    (h : t.get idx = some v) : t.set idx v = some t :=
  setLoop_noop idx v t.height t h

-- ## Totality of the read path on well-formed trees

theorem getLoop_total (t : OctreeBitmap) (idx : Index) (hcore : WFcore t) :
    ∀ ch, 1 ≤ ch →
      (Store.find? t.branches (idx.branchAt ch)).isSome →
      ∃ b, OctreeBitmap.getLoop t idx ch = some b := by
  intro ch
  induction ch with
  | zero => omega
  | succ ch ih =>
    intro h1 hfind
    cases hfind' : Store.find? t.branches (idx.branchAt (ch + 1)) with
    | none => rw [hfind'] at hfind; cases hfind
    | some br =>
      have hp : t.probe idx (ch + 1) = some (br.childAt (idx.bit ch)) := by
        unfold OctreeBitmap.probe
        rw [hfind', Nat.add_sub_cancel]
        rfl
      rw [getLoop_succ, hp]
      cases hc : br.childAt (idx.bit ch) with
      | False => exact ⟨false, rfl⟩
      | True => exact ⟨true, rfl⟩
      | Branch =>
        have hmem := Store.find?_some_mem hfind'
        obtain ⟨h2, hsome⟩ := hcore.child_link _ hmem _ hc
        rw [branchAt_height] at h2
        simp only []
        rw [if_neg (by omega : ¬ ch = 0)]
        apply ih (by omega)
        have hck : childKey (idx.branchAt (ch + 1)) (idx.bit ch) = idx.branchAt ch := by
          have := childKey_branchAt idx (ch + 1) (by omega) (by
            have hkk := hcore.keys_ok _ hmem
            have hkh : (idx.branchAt (ch + 1)).height ≤ t.height := hkk.2.1
            rw [branchAt_height] at hkh
            have hle := hcore.hle
            omega)
          rw [Nat.add_sub_cancel] at this
          exact this
        rw [← hck]
        exact hsome

theorem get_total (t : OctreeBitmap) (idx : Index) (hwf : WF t) (hin : t.inRange idx) :
    ∃ b, t.get idx = some b := by
  obtain ⟨hcore, _⟩ := hwf
  have hroot : idx.branchAt t.height = BranchIndex.root t.height :=
    (branchAt_eq_root_iff idx t.height hcore.hle).mpr ((inRange_iff t idx hcore.hle).mp hin)
  apply getLoop_total t idx hcore t.height hcore.hpos
  rw [hroot]
  exact hcore.root_mem

-- ## All reachable trees are well-formed

theorem reachable_WF : ∀ t, Reachable t → WF t := by
  intro t h
  induction h with
  | new w hw => exact new_WF w hw
  | clear t _ ih => exact clear_WF t ih.1.hpos ih.1.hle
  | set t idx v t' _ _ _ _ hset ih =>
    by_cases hin : t.inRange idx
    · obtain ⟨t'', hrun, hwf', _, _, _⟩ := set_spec t idx v ih hin
      have ht : t'' = t' := Option.some.inj (hrun.symm.trans hset)
      rw [← ht]
      exact hwf'
    · rw [set_out_of_range t idx v ih.1 hin] at hset
      cases hset

-- ## A successful `set` on a well-formed tree preserves the height and root

theorem set_height_of_WF (t : OctreeBitmap) (idx : Index) (v : Bool) (t' : OctreeBitmap)
    (hwf : WF t) (hset : t.set idx v = some t') : t'.height = t.height ∧ WF t' := by
  by_cases hin : t.inRange idx
  · obtain ⟨t'', hrun, hwf', hh, _, _⟩ := set_spec t idx v hwf hin
    have ht : t'' = t' := Option.some.inj (hrun.symm.trans hset)
    rw [← ht]
    exact ⟨hh, hwf'⟩
  · rw [set_out_of_range t idx v hwf.1 hin] at hset
    cases hset

-- ## Running a sequence of in-range sets

theorem inRange_of_height_eq {t t' : OctreeBitmap} (hh : t'.height = t.height) (idx : Index) :
    t'.inRange idx ↔ t.inRange idx := by
  unfold OctreeBitmap.inRange OctreeBitmap.width
  rw [hh]

theorem runSets_last (idx : Index) :
    ∀ (ops : List (Index × Bool)) (t : OctreeBitmap) (b : Bool), WF t →
      (∀ p ∈ ops, t.inRange p.1) → t.get idx = some b →
      ∃ t', t.runSets ops = some t' ∧ t'.height = t.height ∧
        t'.get idx = some (ops.foldl (fun acc p => if p.1 = idx then p.2 else acc) b) := by
  intro ops
  induction ops with
  | nil =>
    intro t b _ _ hget
    exact ⟨t, rfl, rfl, hget⟩
  | cons p ops ih =>
    intro t b hwf hops hget
    obtain ⟨i, v⟩ := p
    obtain ⟨t1, hrun1, hwf1, hh1, hget1, hpres⟩ :=
      set_spec t i v hwf (hops (i, v) (List.mem_cons_self _ _))
    have hrs : OctreeBitmap.runSets t ((i, v) :: ops) = t1.runSets ops := by
      show (match t.set i v with
        | none => none
        | some t' => t'.runSets ops) = t1.runSets ops
      rw [hrun1]
    have hb1 : t1.get idx = some (if i = idx then v else b) := by
      by_cases hi : i = idx
      · rw [if_pos hi, ← hi]
        exact hget1
      · rw [if_neg hi, hpres idx (fun he => hi he.symm)]
        exact hget
    obtain ⟨t', hrun', hh', hget'⟩ := ih t1 (if i = idx then v else b) hwf1
      (fun q hq => (inRange_of_height_eq hh1 q.1).mpr (hops q (List.mem_cons_of_mem _ hq)))
      hb1
    refine ⟨t', by rw [hrs]; exact hrun', hh'.trans hh1, ?_⟩
    rw [hget']
    rfl

-- # The claims

/-- C1: Round trip.  Starting from a freshly constructed tree (any requested
width up to `2 ^ 30`, below the `u32` overflow regime analysed in C4) and
running any sequence of in-range `set(idx, v)` calls, every call succeeds,
and `get(idx)` afterwards returns the value of the most recent `set` whose
index is exactly `idx` (`false` if `idx` was never written) — so writes at
other indices never affect `get(idx)`. -/
theorem C1_round_trip (w : Nat) (hw : w ≤ 2 ^ 30) (ops : List (Index × Bool)) (idx : Index)
    (hops : ∀ p ∈ ops, (OctreeBitmap.new w).inRange p.1)
    (hidx : (OctreeBitmap.new w).inRange idx) :
    ∃ t', (OctreeBitmap.new w).runSets ops = some t' ∧
      t'.get idx = some (lastWrite idx ops) := by
  obtain ⟨t', hrun, _, hget⟩ := runSets_last idx ops (OctreeBitmap.new w) false
    (new_WF w hw) hops (get_new w hw idx hidx)
  exact ⟨t', hrun, hget⟩

/-- Witness for C1 at the source's own test scenario: width 5, writes
`(1,2,3) := true`, `(0,3,4) := true`, `(1,2,3) := false`, read back at
`(1,2,3)`. -/
theorem C1_round_trip_witness :
    5 ≤ 2 ^ 30 ∧
    (∀ p ∈ [((⟨1, 2, 3⟩ : Index), true), (⟨0, 3, 4⟩, true), (⟨1, 2, 3⟩, false)],
      (OctreeBitmap.new 5).inRange p.1) ∧
    (OctreeBitmap.new 5).inRange ⟨1, 2, 3⟩ ∧
    ∃ t', (OctreeBitmap.new 5).runSets
        [((⟨1, 2, 3⟩ : Index), true), (⟨0, 3, 4⟩, true), (⟨1, 2, 3⟩, false)] = some t' ∧
      t'.get ⟨1, 2, 3⟩ = some (lastWrite ⟨1, 2, 3⟩
        [((⟨1, 2, 3⟩ : Index), true), (⟨0, 3, 4⟩, true), (⟨1, 2, 3⟩, false)]) :=
  ⟨by decide, by decide, by decide,
    C1_round_trip 5 (by decide) _ _ (by decide) (by decide)⟩

/-- C2 (amended): the canonical-form invariant holds for every entry other
than the root: after every completed public operation, no reachable branch
entry other than the root is a `Branch` with all 8 children equal to the
same terminal value.  The root must be excluded (see the counterexample):
`compress` iterates `current_height in 1..self.height` only, deliberately
skipping the root, and a fresh or cleared tree's root is uniformly `False`. -/
theorem C2_canonical_non_root (t : OctreeBitmap) (h : Reachable t) : Canonical t :=
  (reachable_WF t h).2

/-- Witness for C2 (amended) on a freshly constructed tree. -/
theorem C2_canonical_non_root_witness :
    Reachable (OctreeBitmap.new 5) ∧ Canonical (OctreeBitmap.new 5) :=
  ⟨Reachable.new 5 (by decide), C2_canonical_non_root _ (Reachable.new 5 (by decide))⟩

/-- C2 (counterexample to the claim as stated): after the completed public
operation `new(5)` the root entry itself is a branch whose 8 children all
equal the terminal `False`, so a reachable branch with 8 identical terminal
children does exist, and it is not replaced by a terminal. -/
theorem C2_counterexample :
    Reachable (OctreeBitmap.new 5) ∧
    Store.find? (OctreeBitmap.new 5).branches
      (BranchIndex.root (OctreeBitmap.new 5).height) =
      some (Branch.uniform RawNode.False) ∧
    (Branch.uniform RawNode.False).uniformTerminal :=
  ⟨Reachable.new 5 (by decide), by decide, ⟨RawNode.False, by decide, rfl⟩⟩

/-- C3 (code bug): the height formula.  The code computes
`height = u32::BITS - width.next_power_of_two().leading_zeros()`, which is
`ceil(log2(width)) + 1` for widths ≥ 2 and `1` for widths 0 and 1 — not the
`ceil(log2(width))` that the spec (and the code's own comment on line 96)
states.  Concretely `new(5)` has height 4 and `width() = 16` where the spec
promises height 3 and `width() == 8`, and `new(1)` has height 1 where the
spec promises a height-0, branchless tree.  (The general off-by-one form is
`new_height_eq`: height = bitLen(width-1) + 1 for 2 ≤ width ≤ 2^30.) -/
theorem C3_height_off_by_one :
    (OctreeBitmap.new 5).height = 4 ∧ (OctreeBitmap.new 5).width = 16 ∧
    (OctreeBitmap.new 1).height = 1 := by
  refine ⟨by decide, by decide, by decide⟩

/-- C4 (code bug): the width law fails near the top of the `u32` range.
For `new(2^31)`: `next_power_of_two` returns `2^31`, its leading-zero count
is 0, so `height = 32`, and `width()` computes `1u32 << 32`, which in release
builds wraps to `1 << (32 % 32) = 1` (debug builds panic on the shift
overflow).  So `width()` is 1, far below the requested `2^31`, refuting
"width() ≥ the value passed to new" as a statement about exact unsigned
arithmetic over the full range. -/
theorem C4_width_overflow :
    OctreeBitmap.width (OctreeBitmap.new (2 ^ 31)) = 1 ∧
    ¬ 2 ^ 31 ≤ OctreeBitmap.width (OctreeBitmap.new (2 ^ 31)) := by
  refine ⟨by decide, by decide⟩

/-- C5 (amended): the change-detection semantics the claim attributes to the
return value holds as the early-return/no-op law instead: on a reachable
tree and an in-range index, `set(idx, v)` leaves the tree completely
unchanged (the `desired_state == other` early `return`) if and only if the
stored value at `idx` already equals `v`.  The source's `set` itself returns
`()` and reports nothing (see the counterexample). -/
theorem C5_set_change_iff (t : OctreeBitmap) (idx : Index) (v : Bool)
    (hr : Reachable t) (hin : t.inRange idx) :
    t.set idx v = some t ↔ t.get idx = some v := by
  constructor
  · intro h
    obtain ⟨t', hrun, _, _, hget, _⟩ := set_spec t idx v (reachable_WF t hr) hin
    have ht : t = t' := Option.some.inj (h.symm.trans hrun)
    rw [ht]
    exact hget
  · exact set_noop t idx v

/-- Witness for C5 (amended): removing from a fresh tree is a no-op. -/
theorem C5_set_change_iff_witness :
    Reachable (OctreeBitmap.new 5) ∧ (OctreeBitmap.new 5).inRange ⟨1, 2, 3⟩ ∧
    ((OctreeBitmap.new 5).set ⟨1, 2, 3⟩ false = some (OctreeBitmap.new 5) ↔
      (OctreeBitmap.new 5).get ⟨1, 2, 3⟩ = some false) :=
  ⟨Reachable.new 5 (by decide), by decide,
    C5_set_change_iff (OctreeBitmap.new 5) ⟨1, 2, 3⟩ false
      (Reachable.new 5 (by decide)) (by decide)⟩

/-- C5 (counterexample to the claim as stated): the source's `set` has the
signature `pub fn set(&mut self, idx: &Index, value: bool)` — its return
type is the unit type, not `bool`, so it cannot report whether the stored
value changed; the concrete in-range call does complete. -/
theorem C5_counterexample :
    SetReturn ≠ Bool ∧ ((OctreeBitmap.new 5).set ⟨1, 2, 3⟩ true).isSome = true := by
  constructor
  · intro h
    have hs : Subsingleton SetReturn := ⟨fun a b => rfl⟩
    have hb : Subsingleton Bool := h ▸ hs
    exact absurd (@Subsingleton.elim Bool hb true false) (by decide)
  · decide

/-- C6: Clear.  After `clear()` on any reachable tree, `get(idx)` returns
`false` for every index in `[0, width())^3` (`clear` keeps the height, hence
the width; it replaces the branch map with the single all-`False` root). -/
theorem C6_clear_resets (t : OctreeBitmap) (idx : Index) (hr : Reachable t)
    (hin : t.clear.inRange idx) : t.clear.get idx = some false := by
  have hwf := reachable_WF t hr
  exact get_clear t hwf.1.hpos hwf.1.hle idx hin

/-- Witness for C6 on a freshly constructed tree. -/
theorem C6_clear_resets_witness :
    Reachable (OctreeBitmap.new 5) ∧ (OctreeBitmap.new 5).clear.inRange ⟨1, 2, 3⟩ ∧
    (OctreeBitmap.new 5).clear.get ⟨1, 2, 3⟩ = some false :=
  ⟨Reachable.new 5 (by decide), by decide,
    C6_clear_resets (OctreeBitmap.new 5) ⟨1, 2, 3⟩ (Reachable.new 5 (by decide))
      (by decide)⟩

/-- C7 (amended): Idempotence.  On a reachable tree and an in-range index,
the second of two consecutive `set(idx, v)` calls is an exact no-op (the
`desired_state == other` early `return`): it leaves the first call's
resulting tree literally unchanged, so every `get` result and the node count
are unchanged after the second call.  The "returns false the second time"
clause cannot hold: `set` returns `()` (see the counterexample). -/
theorem C7_set_idempotent (t : OctreeBitmap) (idx : Index) (v : Bool)
    (hr : Reachable t) (hin : t.inRange idx) :
    (t.set idx v).bind (fun t1 => t1.set idx v) = t.set idx v ∧
    ((t.set idx v).bind (fun t1 => t1.set idx v)).map OctreeBitmap.nodeCount =
      (t.set idx v).map OctreeBitmap.nodeCount := by
  obtain ⟨t', hrun, _, _, hget, _⟩ := set_spec t idx v (reachable_WF t hr) hin
  have h1 : (t.set idx v).bind (fun t1 => t1.set idx v) = t.set idx v := by
    rw [hrun]
    show t'.set idx v = some t'
    exact set_noop t' idx v hget
  exact ⟨h1, by rw [h1]⟩

/-- Witness for C7: the double insert of the source's test. -/
theorem C7_set_idempotent_witness :
    Reachable (OctreeBitmap.new 5) ∧ (OctreeBitmap.new 5).inRange ⟨1, 2, 3⟩ ∧
    ((((OctreeBitmap.new 5).set ⟨1, 2, 3⟩ true).bind (fun t1 => t1.set ⟨1, 2, 3⟩ true) =
        (OctreeBitmap.new 5).set ⟨1, 2, 3⟩ true) ∧
      ((((OctreeBitmap.new 5).set ⟨1, 2, 3⟩ true).bind
          (fun t1 => t1.set ⟨1, 2, 3⟩ true)).map OctreeBitmap.nodeCount =
        ((OctreeBitmap.new 5).set ⟨1, 2, 3⟩ true).map OctreeBitmap.nodeCount)) :=
  ⟨Reachable.new 5 (by decide), by decide,
    C7_set_idempotent (OctreeBitmap.new 5) ⟨1, 2, 3⟩ true (Reachable.new 5 (by decide))
      (by decide)⟩

/-- C7 (counterexample to the "returns false the second time" clause): `set`
returns the unit type, not `bool`, so the second call cannot return `false`
— while a concrete double call on a fresh tree does complete twice. -/
theorem C7_counterexample :
    SetReturn ≠ Bool ∧
    (((OctreeBitmap.new 5).set ⟨1, 2, 3⟩ true).bind
      (fun t1 => t1.set ⟨1, 2, 3⟩ true)).isSome = true := by
  constructor
  · intro h
    have hs : Subsingleton SetReturn := ⟨fun a b => rfl⟩
    have hb : Subsingleton Bool := h ▸ hs
    exact absurd (@Subsingleton.elim Bool hb true false) (by decide)
  · decide

/-- C8: Out-of-range handling.  On a reachable tree, a `u32` index with some
axis ≥ `width()` makes both `get` and `set` fail deterministically at their
very first root lookup (the `HashMap` index / `unwrap` panic, modelled as
`none`): the failure is reportable and happens before any mutation, so the
tree is unchanged — no silent truncation and no misaddressing of nodes. -/
theorem C8_out_of_range (t : OctreeBitmap) (idx : Index) (v : Bool)
    (hr : Reachable t)
    (hx : idx.x < 2 ^ 32) (hy : idx.y < 2 ^ 32) (hz : idx.z < 2 ^ 32)
    (hout : ¬ t.inRange idx) :
    t.get idx = none ∧ t.set idx v = none := by
  have hcore := (reachable_WF t hr).1
  exact ⟨get_out_of_range t idx hcore hout, set_out_of_range t idx v hcore hout⟩

/-- Witness for C8: `(16, 0, 0)` is out of range for `new(5)` (width 16). -/
theorem C8_out_of_range_witness :
    Reachable (OctreeBitmap.new 5) ∧
    (Index.mk 16 0 0).x < 2 ^ 32 ∧ (Index.mk 16 0 0).y < 2 ^ 32 ∧
    (Index.mk 16 0 0).z < 2 ^ 32 ∧
    ¬ (OctreeBitmap.new 5).inRange ⟨16, 0, 0⟩ ∧
    ((OctreeBitmap.new 5).get ⟨16, 0, 0⟩ = none ∧
      (OctreeBitmap.new 5).set ⟨16, 0, 0⟩ true = none) :=
  ⟨Reachable.new 5 (by decide), by decide, by decide, by decide, by decide,
    C8_out_of_range (OctreeBitmap.new 5) ⟨16, 0, 0⟩ true (Reachable.new 5 (by decide))
      (by decide) (by decide) (by decide) (by decide)⟩

/-- C9: Read-path safety and termination.  On every reachable tree and every
in-range index, `get` returns a boolean: the descent (whose recursion
parameter `current_height` starts at `height` and strictly decreases, so it
runs at most `height` iterations) never misses a map entry and never reaches
the fatal branch-at-height-zero case — both of which the model returns as
`none` — and, being a pure function of the tree, it has no side effects. -/
theorem C9_get_total (t : OctreeBitmap) (idx : Index) (hr : Reachable t)
    (hin : t.inRange idx) : ∃ b, t.get idx = some b :=
  get_total t idx (reachable_WF t hr) hin

/-- Witness for C9 on a freshly constructed tree. -/
theorem C9_get_total_witness :
    Reachable (OctreeBitmap.new 5) ∧ (OctreeBitmap.new 5).inRange ⟨1, 2, 3⟩ ∧
    ∃ b, (OctreeBitmap.new 5).get ⟨1, 2, 3⟩ = some b :=
  ⟨Reachable.new 5 (by decide), by decide,
    C9_get_total (OctreeBitmap.new 5) ⟨1, 2, 3⟩ (Reachable.new 5 (by decide))
      (by decide)⟩

/-- C10: Implicit root invariant.  Every reachable tree has a branch-map
entry at the root key (base `(0,0,0)` at the stored height); `clear`
preserves the height exactly; and every successful `set` preserves both the
height and the presence of the root entry — the compression loop iterates
`1..self.height`, strictly below the root, so it never removes the root, and
in-range root lookups in `get` and `set` never fail (C9, C1). -/
theorem C10_root_and_height (t : OctreeBitmap) (idx : Index) (v : Bool)
    (t' : OctreeBitmap) (hr : Reachable t) (hset : t.set idx v = some t') :
    (Store.find? t.branches (BranchIndex.root t.height)).isSome ∧
    t.clear.height = t.height ∧
    t'.height = t.height ∧
    (Store.find? t'.branches (BranchIndex.root t'.height)).isSome := by
  have hwf := reachable_WF t hr
  obtain ⟨hh, hwf'⟩ := set_height_of_WF t idx v t' hwf hset
  exact ⟨hwf.1.root_mem, rfl, hh, hwf'.1.root_mem⟩

/-- Witness for C10: a no-op remove on a fresh tree (so the updated tree is
the same fresh tree, and the successful-`set` hypothesis evaluates). -/
theorem C10_root_and_height_witness :
    Reachable (OctreeBitmap.new 5) ∧
    (OctreeBitmap.new 5).set ⟨1, 2, 3⟩ false = some (OctreeBitmap.new 5) ∧
    ((Store.find? (OctreeBitmap.new 5).branches
        (BranchIndex.root (OctreeBitmap.new 5).height)).isSome ∧
      (OctreeBitmap.new 5).clear.height = (OctreeBitmap.new 5).height ∧
      (OctreeBitmap.new 5).height = (OctreeBitmap.new 5).height ∧
      (Store.find? (OctreeBitmap.new 5).branches
        (BranchIndex.root (OctreeBitmap.new 5).height)).isSome) :=
  ⟨Reachable.new 5 (by decide), rfl,
    C10_root_and_height (OctreeBitmap.new 5) ⟨1, 2, 3⟩ false (OctreeBitmap.new 5)
      (Reachable.new 5 (by decide)) rfl⟩

-- # Appendix: the division form of the source's bitmask

/-- The promised bridge from the kernel-friendly `/`-`*` form of `clearLow`
to the source's bitwise form `x & !((1 << height) - 1)` (whose `u32`
complement-mask is `mask32 height`), for all `u32` values `x`. -/
theorem clearLow_eq_land (x height : Nat) (hx : x < 2 ^ 32) :
    clearLow x height = x &&& mask32 height := by
  have hlt : height % 32 < 32 := Nat.mod_lt _ (by omega)
  have hmask : mask32 height = 2 ^ (height % 32) * (2 ^ (32 - height % 32) - 1) := by
    unfold mask32
    have hp : (2 : Nat) ^ (height % 32) * 2 ^ (32 - height % 32) = 2 ^ 32 := by
      rw [← Nat.pow_add]
      congr 1
      omega
    have := Nat.mul_sub ((2 : Nat) ^ (height % 32)) (2 ^ (32 - height % 32)) 1
    omega
  apply Nat.eq_of_testBit_eq
  intro i
  rw [Nat.testBit_land]
  by_cases hi32 : 32 ≤ i
  · have hc : clearLow x height < 2 ^ i :=
      lt_of_le_of_lt (clearLow_le x height)
        (lt_of_lt_of_le hx (Nat.pow_le_pow_right (by omega) hi32))
    have hx' : x < 2 ^ i := lt_of_lt_of_le hx (Nat.pow_le_pow_right (by omega) hi32)
    rw [Nat.testBit_lt_two_pow hc, Nat.testBit_lt_two_pow hx', Bool.false_and]
  · by_cases hih : i < height % 32
    · have hsplit : (2 : Nat) ^ (height % 32) = 2 ^ i * 2 ^ (height % 32 - i) := by
        rw [← Nat.pow_add]
        congr 1
        omega
      have hL : (clearLow x height).testBit i = false := by
        rw [Nat.testBit_to_div_mod]
        apply decide_eq_false
        have hdiv : clearLow x height / 2 ^ i = x / 2 ^ (height % 32) * 2 ^ (height % 32 - i) := by
          show x / 2 ^ (height % 32) * 2 ^ (height % 32) / 2 ^ i = _
          calc x / 2 ^ (height % 32) * 2 ^ (height % 32) / 2 ^ i
              = 2 ^ i * (x / 2 ^ (height % 32) * 2 ^ (height % 32 - i)) / 2 ^ i := by
                rw [hsplit]
                ring_nf
            _ = x / 2 ^ (height % 32) * 2 ^ (height % 32 - i) :=
                Nat.mul_div_cancel_left _ (Nat.pos_pow_of_pos _ (by omega))
        have heven : (2 : Nat) ^ (height % 32 - i) = 2 ^ (height % 32 - i - 1) * 2 := by
          rw [← Nat.pow_succ]
          congr 1
          omega
        rw [hdiv, heven]
        have hre : x / 2 ^ (height % 32) * (2 ^ (height % 32 - i - 1) * 2) =
            x / 2 ^ (height % 32) * 2 ^ (height % 32 - i - 1) * 2 := by
          ring
        rw [hre, Nat.mul_mod_left]
        omega
      have hM : (mask32 height).testBit i = false := by
        rw [Nat.testBit_to_div_mod]
        apply decide_eq_false
        have hdiv : mask32 height / 2 ^ i =
            2 ^ (height % 32 - i) * (2 ^ (32 - height % 32) - 1) := by
          rw [hmask]
          calc 2 ^ (height % 32) * (2 ^ (32 - height % 32) - 1) / 2 ^ i
              = 2 ^ i * (2 ^ (height % 32 - i) * (2 ^ (32 - height % 32) - 1)) / 2 ^ i := by
                rw [hsplit]
                ring_nf
            _ = 2 ^ (height % 32 - i) * (2 ^ (32 - height % 32) - 1) :=
                Nat.mul_div_cancel_left _ (Nat.pos_pow_of_pos _ (by omega))
        have heven : (2 : Nat) ^ (height % 32 - i) = 2 ^ (height % 32 - i - 1) * 2 := by
          rw [← Nat.pow_succ]
          congr 1
          omega
        rw [hdiv, heven]
        have hre : 2 ^ (height % 32 - i - 1) * 2 * (2 ^ (32 - height % 32) - 1) =
            2 ^ (height % 32 - i - 1) * (2 ^ (32 - height % 32) - 1) * 2 := by
          ring
        rw [hre, Nat.mul_mod_left]
        omega
      rw [hL, hM, Bool.and_false]
    · have hsplit : (2 : Nat) ^ i = 2 ^ (height % 32) * 2 ^ (i - height % 32) := by
        rw [← Nat.pow_add]
        congr 1
        omega
      have hL : (clearLow x height).testBit i = x.testBit i := by
        rw [Nat.testBit_to_div_mod, Nat.testBit_to_div_mod]
        have hdiv : clearLow x height / 2 ^ i = x / 2 ^ i := by
          show x / 2 ^ (height % 32) * 2 ^ (height % 32) / 2 ^ i = _
          rw [hsplit, ← Nat.div_div_eq_div_mul,
            Nat.mul_div_cancel _ (Nat.pos_pow_of_pos _ (by omega)),
            Nat.div_div_eq_div_mul, ← Nat.pow_add,
            show height % 32 + (i - height % 32) = i from by omega]
        rw [hdiv]
      have hM : (mask32 height).testBit i = true := by
        rw [Nat.testBit_to_div_mod]
        apply decide_eq_true
        have hdiv : mask32 height / 2 ^ i = 2 ^ (32 - i) - 1 := by
          rw [hmask, hsplit, ← Nat.div_div_eq_div_mul,
            Nat.mul_div_cancel_left _ (Nat.pos_pow_of_pos _ (by omega))]
          have hpos : 0 < (2 : Nat) ^ (i - height % 32) := Nat.pos_pow_of_pos _ (by omega)
          have hmul : (2 : Nat) ^ (32 - i) * 2 ^ (i - height % 32) = 2 ^ (32 - height % 32) := by
            rw [← Nat.pow_add]
            congr 1
            omega
          have hsub : ((2 : Nat) ^ (32 - i) - 1) * 2 ^ (i - height % 32) =
              2 ^ (32 - height % 32) - 2 ^ (i - height % 32) := by
            rw [Nat.sub_mul, one_mul, hmul]
          apply Nat.div_eq_of_lt_le
          · rw [hsub]
            omega
          · have hs : ((2 : Nat) ^ (32 - i) - 1 + 1) = 2 ^ (32 - i) := by
              have := Nat.pos_pow_of_pos (32 - i) (show 0 < 2 from by omega)
              omega
            rw [hs, hmul]
            have h1 := Nat.pos_pow_of_pos (32 - height % 32) (show 0 < 2 from by omega)
            have h2 := hmul
            omega
        rw [hdiv]
        have hodd : (2 : Nat) ^ (32 - i) = 2 * 2 ^ (31 - i) := by
          rw [← Nat.pow_succ']
          congr 1
          omega
        have h3 := Nat.pos_pow_of_pos (31 - i) (show 0 < 2 from by omega)
        omega
      rw [hL, hM, Bool.and_true]
